import Mathlib

/-!
Verification of the AutoWeave temporal-aggregation and chart engine
(src/script.js) against its natural-language specification.

The JavaScript source is shallowly embedded in Lean:
* strings are lists of characters (`Str`),
* JS numbers are modelled as rationals (`ℚ`); all values arising in the
  modelled code paths are finite, so the `Number.isFinite` guards of the
  source are vacuous in the model,
* JS `Map`s with `get(k) || 0` access are modelled as total functions with
  default value `0`, together with an explicit insertion-ordered key list
  where the key set matters,
* the host `Date` object is modelled by a proleptic-Gregorian calendar on
  civil triples (year, month, day), with local time taken equal to UTC;
  `new Date(s)` is modelled on ISO `YYYY-MM-DD` date-only strings (the only
  shape produced by the modelled data paths), other host-parseable formats
  being outside the model.
-/

namespace AutoWeave

/-- Strings of the embedded program are lists of characters. -/
abbrev Str := List Char

/-- Whitespace test used by the model of `String.prototype.trim` (the ASCII
whitespace characters; the further Unicode space classes trimmed by JS do not
occur in the modelled inputs). -/
def isSpace (c : Char) : Bool :=
  c = ' ' || c = '\t' || c = '\n' || c = '\r' || c = '\x0b' || c = '\x0c'

/-- Model of `String.prototype.trim`: drop leading and trailing whitespace. -/
def trim (s : Str) : Str :=
  ((s.dropWhile isSpace).reverse.dropWhile isSpace).reverse

/-- Decimal digit character for a digit value, as produced by JS number to
string conversion. -/
def digitChar (n : Nat) : Char :=
  Char.ofNat (48 + n)

/-- Fuel-indexed helper for `natChars` (structural recursion so that the
function evaluates by kernel reduction). -/
def natCharsAux : Nat → Nat → Str
  | 0, _ => []
  | fuel + 1, n =>
    if n < 10 then [digitChar n]
    else natCharsAux fuel (n / 10) ++ [digitChar (n % 10)]

/-- Decimal rendering of a natural number (model of JS template interpolation
of a nonnegative integer). -/
def natChars (n : Nat) : Str :=
  natCharsAux (n + 1) n

/-- Model of `String(n).padStart(2, "0")` for a nonnegative integer. -/
def pad2 (n : Nat) : Str :=
  if n < 10 then '0' :: natChars n else natChars n

/-- Strict lexicographic order on strings by character code, the order in
which `localeCompare` ranks the digit/dash/letter bucket keys produced by
the program. -/
def strLtB : Str → Str → Bool
  | [], [] => false
  | [], _ :: _ => true
  | _ :: _, [] => false
  | a :: as, b :: bs => a < b || (a = b && strLtB as bs)

/-- Reflexive lexicographic comparison derived from `strLtB`, used as the
ascending-sort predicate. -/
def strLeB (a b : Str) : Bool :=
  !strLtB b a

/-- Insertion of an element into a list sorted by `le` (helper for the model
of the stable `Array.prototype.sort`). -/
def insertLe {α : Type} (le : α → α → Bool) (a : α) : List α → List α
  | [] => [a]
  | b :: l => if le a b then a :: b :: l else b :: insertLe le a l

/-- Stable insertion sort, modelling `Array.prototype.sort` with a comparator
whose ascending order is `le`. -/
def isort {α : Type} (le : α → α → Bool) : List α → List α
  | [] => []
  | a :: l => insertLe le a (isort le l)

/-- Model of `sortIsoDates` (src/script.js line 120): sort strings in the
ascending `localeCompare` order. -/
def sortIsoDates (l : List Str) : List Str :=
  isort strLeB l

theorem insertLe_perm {α : Type} (le : α → α → Bool) (a : α) (l : List α) :
    (insertLe le a l).Perm (a :: l) := by
  induction l with
  | nil => exact List.Perm.refl _
  | cons b l ih =>
    rw [insertLe]
    by_cases h : le a b = true
    · rw [if_pos h]
    · rw [if_neg h]
      exact ((ih.cons b).trans (List.Perm.swap a b l))

theorem isort_perm {α : Type} (le : α → α → Bool) (l : List α) :
    (isort le l).Perm l := by
  induction l with
  | nil => exact List.Perm.refl _
  | cons a l ih =>
    exact (insertLe_perm le a (isort le l)).trans (ih.cons a)

theorem insertLe_sorted {α : Type} (le : α → α → Bool)
    (htot : ∀ x y : α, le x y = true ∨ le y x = true)
    (htrans : ∀ x y z : α, le x y = true → le y z = true → le x z = true)
    (a : α) (l : List α)
    (hl : l.Pairwise (fun x y => le x y = true)) :
    (insertLe le a l).Pairwise (fun x y => le x y = true) := by
  induction l with
  | nil => simp [insertLe]
  | cons b l ih =>
    rcases List.pairwise_cons.1 hl with ⟨hb, hl'⟩
    rw [insertLe]
    by_cases h : le a b = true
    · rw [if_pos h]
      refine List.pairwise_cons.2 ⟨?_, hl⟩
      intro x hx
      rcases List.mem_cons.1 hx with hxb | hx
      · rw [hxb]; exact h
      · exact htrans a b x h (hb x hx)
    · rw [if_neg h]
      refine List.pairwise_cons.2 ⟨?_, ih hl'⟩
      intro x hx
      have hm := (insertLe_perm le a l).mem_iff.1 hx
      rcases List.mem_cons.1 hm with hxa | hx'
      · rcases htot a b with h' | h'
        · exact absurd h' h
        · rw [hxa]; exact h'
      · exact hb x hx'

theorem isort_sorted {α : Type} (le : α → α → Bool)
    (htot : ∀ x y : α, le x y = true ∨ le y x = true)
    (htrans : ∀ x y z : α, le x y = true → le y z = true → le x z = true)
    (l : List α) :
    (isort le l).Pairwise (fun x y => le x y = true) := by
  induction l with
  | nil => simp [isort]
  | cons a l ih => exact insertLe_sorted le htot htrans a (isort le l) ih

theorem strLtB_trans : ∀ a b c : Str,
    strLtB a b = true → strLtB b c = true → strLtB a c = true
  | [], [], _, h, _ => by simp [strLtB] at h
  | [], _ :: _, [], _, h => by simp [strLtB] at h
  | [], _ :: _, _ :: _, _, _ => by simp [strLtB]
  | _ :: _, [], _, h, _ => by simp [strLtB] at h
  | _ :: _, _ :: _, [], _, h => by simp [strLtB] at h
  | x :: xs, y :: ys, z :: zs, h1, h2 => by
    simp only [strLtB, Bool.or_eq_true, Bool.and_eq_true, decide_eq_true_eq] at h1 h2 ⊢
    rcases h1 with h1 | ⟨rfl, h1⟩
    · rcases h2 with h2 | ⟨rfl, h2⟩
      · exact Or.inl (lt_trans h1 h2)
      · exact Or.inl h1
    · rcases h2 with h2 | ⟨rfl, h2⟩
      · exact Or.inl h2
      · exact Or.inr ⟨rfl, strLtB_trans xs ys zs h1 h2⟩

theorem strLtB_connex : ∀ a b : Str,
    strLtB a b = false → strLtB b a = false → a = b
  | [], [], _, _ => rfl
  | [], _ :: _, h, _ => by simp [strLtB] at h
  | _ :: _, [], _, h => by simp [strLtB] at h
  | x :: xs, y :: ys, h1, h2 => by
    simp only [strLtB, Bool.or_eq_false_iff, Bool.and_eq_false_iff] at h1 h2
    rcases h1 with ⟨hxy, h1⟩
    rcases h2 with ⟨hyx, h2⟩
    have hxy' : ¬ x < y := by simpa using hxy
    have hyx' : ¬ y < x := by simpa using hyx
    have hxy : x = y := le_antisymm (not_lt.1 hyx') (not_lt.1 hxy')
    subst hxy
    rcases h1 with h1 | h1
    · simp at h1
    · rcases h2 with h2 | h2
      · simp at h2
      · rw [strLtB_connex xs ys h1 h2]

theorem strLtB_irrefl : ∀ a : Str, strLtB a a = false
  | [] => rfl
  | x :: xs => by
    simp only [strLtB, Bool.or_eq_false_iff, Bool.and_eq_false_iff]
    exact ⟨by simp, Or.inr (strLtB_irrefl xs)⟩

theorem strLtB_asymm (a b : Str) (h : strLtB a b = true) : strLtB b a = false := by
  by_contra hc
  have hc' : strLtB b a = true := by
    revert hc
    cases strLtB b a <;> simp
  have := strLtB_trans a b a h hc'
  rw [strLtB_irrefl a] at this
  exact absurd this (by simp)

theorem strLeB_total (a b : Str) : strLeB a b = true ∨ strLeB b a = true := by
  by_cases h : strLtB b a = true
  · right
    rw [strLeB, strLtB_asymm b a h]
    rfl
  · left
    rw [strLeB]
    cases hba : strLtB b a
    · rfl
    · exact absurd hba h

theorem strLeB_trans (a b c : Str) (h1 : strLeB a b = true)
    (h2 : strLeB b c = true) : strLeB a c = true := by
  rw [strLeB] at h1 h2 ⊢
  by_contra hc
  have hca : strLtB c a = true := by
    revert hc
    cases strLtB c a <;> simp
  have hba : strLtB b a = false := by
    revert h1
    cases strLtB b a <;> simp
  have hcb : strLtB c b = false := by
    revert h2
    cases strLtB c b <;> simp
  by_cases hbc : strLtB b c = true
  · have := strLtB_trans b c a hbc hca
    rw [hba] at this
    exact absurd this (by simp)
  · have hbc' : strLtB b c = false := by
      revert hbc
      cases strLtB b c <;> simp
    have hbceq : b = c := strLtB_connex b c hbc' hcb
    subst hbceq
    rw [hca] at hba
    exact absurd hba (by simp)

theorem strLeB_refl (a : Str) : strLeB a a = true := by
  rw [strLeB, strLtB_irrefl a]
  rfl

/-- Character loop of `parseCsvLine` (src/script.js lines 45-74).  The three
arguments are the remaining input, the current cell accumulator `cur`, and the
`inQuotes` flag; the returned list is the remaining fields (`out` plus the
final `out.push(cur)`). -/
def csvFields : Str → Str → Bool → List Str
  | [], cur, _ => [cur]
  | '"' :: '"' :: rest, cur, true => csvFields rest (cur ++ ['"']) true
  | '"' :: rest, cur, inQ => csvFields rest cur (!inQ)
  | ',' :: rest, cur, true => csvFields rest (cur ++ [',']) true
  | ',' :: rest, cur, false => cur :: csvFields rest [] false
  | c :: rest, cur, inQ => csvFields rest (cur ++ [c]) inQ

/-- Model of `parseCsvLine` (src/script.js lines 45-74): split one line into
cells, honouring quoting and doubled-quote escapes. -/
def parseCsvLine (line : Str) : List Str :=
  csvFields line [] false

/-- Helper for `splitLines`: prepend a string to the first segment of a
segment list. -/
def consHeadStr (a : Str) : List Str → List Str
  | [] => [a]
  | l :: t => (a ++ l) :: t

/-- Model of `text.split(/\r?\n/)` (src/script.js line 77): cut the text at
every `\n`, also consuming a `\r` that immediately precedes the `\n`; any
other `\r` stays in the segment content. -/
def splitLines : Str → List Str
  | [] => [[]]
  | '\r' :: '\n' :: rest => [] :: splitLines rest
  | '\n' :: rest => [] :: splitLines rest
  | c :: rest => consHeadStr [c] (splitLines rest)

/-- Model of `parseCsv` (src/script.js lines 76-93): returns the trimmed
header cells and, for each further non-blank line, the row as an association
list pairing each header cell with the trimmed cell value (`row[header[j]] =
(cols[j] ?? "").trim()`; the association list keeps the header order). -/
def parseCsv (text : Str) : (List Str) × List (List (Str × Str)) :=
  let lines := (splitLines text).filter (fun l => trim l ≠ [])
  match lines with
  | [] => ([], [])
  | l0 :: rest =>
    let header := (parseCsvLine l0).map trim
    let rows := rest.map (fun line =>
      let cols := parseCsvLine line
      (List.range header.length).map
        (fun j => (header.getD j [], trim (cols.getD j []))))
    (header, rows)

/-- CSV quoting of a cell body: double every quote character (the inverse of
the un-escaping the parser performs inside a quoted field). -/
def escapeQuotes : Str → Str
  | [] => []
  | '"' :: r => '"' :: '"' :: escapeQuotes r
  | c :: r => c :: escapeQuotes r


theorem csvFields_other (c : Char) (rest cur : Str) (inQ : Bool)
    (hq : c ≠ '"') (hc : c ≠ ',') :
    csvFields (c :: rest) cur inQ = csvFields rest (cur ++ [c]) inQ := by
  cases inQ <;> simp [csvFields, hq, hc]

theorem csvFields_quoted_step (c : Char) (rest cur : Str) (hq : c ≠ '"') :
    csvFields (c :: rest) cur true = csvFields rest (cur ++ [c]) true := by
  by_cases hc : c = ','
  · subst hc
    simp [csvFields]
  · exact csvFields_other c rest cur true hq hc

theorem csvFields_open_quote (rest cur : Str) :
    csvFields ('"' :: rest) cur false = csvFields rest cur true := by
  cases rest with
  | nil => simp [csvFields]
  | cons c rest' => simp [csvFields]

theorem csvFields_close_quote (rest cur : Str) (h : rest.head? ≠ some '"') :
    csvFields ('"' :: rest) cur true = csvFields rest cur false := by
  cases rest with
  | nil => simp [csvFields]
  | cons c rest' =>
    by_cases hc : c = '"'
    · subst hc
      simp at h
    · simp [csvFields, hc]

theorem escapeQuotes_other (c : Char) (s : Str) (hq : c ≠ '"') :
    escapeQuotes (c :: s) = c :: escapeQuotes s := by
  simp [escapeQuotes, hq]

theorem csvFields_escape : ∀ s k cur : Str, k.head? ≠ some '"' →
    csvFields (escapeQuotes s ++ '"' :: k) cur true = csvFields k (cur ++ s) false
  | [], k, cur, hk => by
    rw [escapeQuotes, List.nil_append, csvFields_close_quote k cur hk,
      List.append_nil]
  | '"' :: s', k, cur, hk => by
    rw [escapeQuotes, List.cons_append, List.cons_append]
    rw [show csvFields ('"' :: '"' :: (escapeQuotes s' ++ '"' :: k)) cur true =
        csvFields (escapeQuotes s' ++ '"' :: k) (cur ++ ['"']) true from by
      simp [csvFields]]
    rw [csvFields_escape s' k (cur ++ ['"']) hk]
    simp
  | c :: s', k, cur, hk => by
    by_cases hq : c = '"'
    · subst hq
      rw [escapeQuotes, List.cons_append, List.cons_append]
      rw [show csvFields ('"' :: '"' :: (escapeQuotes s' ++ '"' :: k)) cur true =
          csvFields (escapeQuotes s' ++ '"' :: k) (cur ++ ['"']) true from by
        simp [csvFields]]
      rw [csvFields_escape s' k (cur ++ ['"']) hk]
      simp
    · rw [escapeQuotes_other c s' hq, List.cons_append,
        csvFields_quoted_step c (escapeQuotes s' ++ '"' :: k) cur hq,
        csvFields_escape s' k (cur ++ [c]) hk]
      simp

theorem parseCsvLine_quoted (s : Str) :
    parseCsvLine ('"' :: escapeQuotes s ++ ['"']) = [s] := by
  rw [parseCsvLine, List.cons_append, csvFields_open_quote,
    csvFields_escape s [] [] (by simp), List.nil_append]
  rfl

theorem parseCsvLine_quoted_comma (s t : Str) :
    parseCsvLine ('"' :: escapeQuotes s ++ '"' :: ',' :: t) = s :: parseCsvLine t := by
  rw [parseCsvLine, List.cons_append, csvFields_open_quote,
    csvFields_escape s (',' :: t) [] (by simp), List.nil_append]
  simp [csvFields, parseCsvLine]

theorem splitLines_other (c : Char) (l : Str) (h1 : c ≠ '\n') (h2 : c ≠ '\r') :
    splitLines (c :: l) = consHeadStr [c] (splitLines l) := by
  simp [splitLines, h1, h2]

theorem splitLines_cr (l : Str) (h : l.head? ≠ some '\n') :
    splitLines ('\r' :: l) = consHeadStr ['\r'] (splitLines l) := by
  cases l with
  | nil => simp [splitLines, consHeadStr]
  | cons c l' =>
    by_cases hc : c = '\n'
    · subst hc; simp at h
    · simp [splitLines, hc]

theorem splitLines_ne_nil : ∀ l : Str, splitLines l ≠ []
  | [] => by simp [splitLines]
  | '\r' :: '\n' :: _ => by simp [splitLines]
  | c :: rest => by
    by_cases h1 : c = '\n'
    · subst h1; simp [splitLines]
    · by_cases h2 : c = '\r'
      · subst h2
        cases rest with
        | nil => simp [splitLines, consHeadStr]
        | cons d rest' =>
          by_cases hd : d = '\n'
          · subst hd; simp [splitLines]
          · rw [splitLines_cr (d :: rest') (by simp [hd])]
            cases hs : splitLines (d :: rest') with
            | nil => simp [consHeadStr]
            | cons x xs => simp [consHeadStr]
      · rw [splitLines_other c rest h1 h2]
        cases hs : splitLines rest with
        | nil => simp [consHeadStr]
        | cons x xs => simp [consHeadStr]

theorem consHeadStr_consHeadStr (a b : Str) (ls : List Str) (h : ls ≠ []) :
    consHeadStr a (consHeadStr b ls) = consHeadStr (a ++ b) ls := by
  cases ls with
  | nil => exact absurd rfl h
  | cons l t => simp [consHeadStr]

theorem splitLines_append (a : Str) (l : Str) (h1 : '\n' ∉ a) (h2 : '\r' ∉ a) :
    splitLines (a ++ l) = consHeadStr a (splitLines l) := by
  induction a with
  | nil =>
    cases hs : splitLines l with
    | nil => exact absurd hs (splitLines_ne_nil l)
    | cons x xs => simp [consHeadStr, hs]
  | cons c a' ih =>
    have hc1 : c ≠ '\n' := fun hc => h1 (by rw [hc]; exact List.mem_cons_self _ _)
    have hc2 : c ≠ '\r' := fun hc => h2 (by rw [hc]; exact List.mem_cons_self _ _)
    have ha1 : '\n' ∉ a' := fun hm => h1 (List.mem_cons_of_mem _ hm)
    have ha2 : '\r' ∉ a' := fun hm => h2 (List.mem_cons_of_mem _ hm)
    rw [List.cons_append, splitLines_other c (a' ++ l) hc1 hc2, ih ha1 ha2,
      consHeadStr_consHeadStr [c] a' (splitLines l) (splitLines_ne_nil l)]
    rfl

/-- Claim C3 counterexample: the claim that newlines inside quoted fields are
kept as literal cell content and that a bare carriage return is dropped is
false for `parseCsv`.  The text `h\n"b\nc"` has a quoted field containing a
newline; the parser splits it into two rows (`b` and `c`) instead of one row
with the cell `b\nc`.  The text `h\nx\ry` has a carriage return not followed
by a newline; the parser keeps it inside the cell (`x\ry`) instead of
dropping it. -/
theorem C3_csv_counterexample :
    (parseCsv "h\n\"b\nc\"".toList).2 =
      [[("h".toList, "b".toList)], [("h".toList, "c".toList)]] ∧
    (parseCsv "h\n\"b\nc\"".toList).2 ≠ [[("h".toList, "b\nc".toList)]] ∧
    (parseCsv "h\nx\ry".toList).2 = [[("h".toList, "x\ry".toList)]] ∧
    (parseCsv "h\nx\ry".toList).2 ≠ [[("h".toList, "xy".toList)]] := by
  refine ⟨by decide, by decide, by decide, by decide⟩

/-- Claim C3 (amended): within a single line the parser un-escapes doubled
quotes inside a quoted field to a single quote and treats commas inside the
quoted field as literal cell content; however the raw text is first cut into
rows at every `\n` or `\r\n`, even inside quoted fields, and a carriage
return not immediately followed by `\n` is kept as cell content (only a `\r`
directly before a `\n` is dropped as line-ending noise). -/
theorem C3_csv_amended (s t a b : Str) (c : Char)
    (h1 : '\n' ∉ a) (h2 : '\r' ∉ a) (hc : c ≠ '\n') :
    parseCsvLine ('"' :: escapeQuotes s ++ ['"']) = [s] ∧
    parseCsvLine ('"' :: escapeQuotes s ++ '"' :: ',' :: t) = s :: parseCsvLine t ∧
    splitLines (a ++ '\n' :: b) = a :: splitLines b ∧
    splitLines (a ++ '\r' :: '\n' :: b) = a :: splitLines b ∧
    splitLines ('\r' :: c :: b) = consHeadStr ['\r'] (splitLines (c :: b)) := by
  refine ⟨parseCsvLine_quoted s, parseCsvLine_quoted_comma s t, ?_, ?_, ?_⟩
  · rw [splitLines_append a ('\n' :: b) h1 h2]
    rw [show splitLines ('\n' :: b) = [] :: splitLines b from by simp [splitLines]]
    simp [consHeadStr]
  · rw [splitLines_append a ('\r' :: '\n' :: b) h1 h2]
    rw [show splitLines ('\r' :: '\n' :: b) = [] :: splitLines b from by
      simp [splitLines]]
    simp [consHeadStr]
  · exact splitLines_cr (c :: b) (by simp [hc])

/-- Claim C3 witness: the amended parsing facts at concrete inputs (a field
containing a quote, a comma and plain text; segments around both kinds of
line break; a kept bare carriage return). -/
theorem C3_csv_amended_witness :
    parseCsvLine ('"' :: escapeQuotes "p\",q".toList ++ ['"']) = ["p\",q".toList] ∧
    parseCsvLine ('"' :: escapeQuotes "p\",q".toList ++ '"' :: ',' :: "w".toList) =
      "p\",q".toList :: parseCsvLine "w".toList ∧
    splitLines ("ab".toList ++ '\n' :: "cd".toList) =
      "ab".toList :: splitLines "cd".toList ∧
    splitLines ("ab".toList ++ '\r' :: '\n' :: "cd".toList) =
      "ab".toList :: splitLines "cd".toList ∧
    splitLines ('\r' :: 'z' :: "cd".toList) =
      consHeadStr ['\r'] (splitLines ('z' :: "cd".toList)) :=
  C3_csv_amended "p\",q".toList "w".toList "ab".toList "cd".toList 'z'
    (by decide) (by decide) (by decide)

/-- Decimal digit test for the number parser. -/
def isDigit (c : Char) : Bool :=
  '0' ≤ c && c ≤ '9'

/-- Value of a string of decimal digits. -/
def digitsVal (l : Str) : Nat :=
  l.foldl (fun acc c => 10 * acc + (c.toNat - 48)) 0

/-- Magnitude part of the model of JS `Number(...)` on a trimmed string:
decimal integer, optionally with a fractional part (`12`, `12.5`, `12.`,
`.5`).  Returns `none` for NaN.  Exponent/hex forms do not occur in the
modelled data and are outside the model. -/
def jsNumberMag (l : Str) : Option ℚ :=
  let ip := l.takeWhile isDigit
  let rest := l.dropWhile isDigit
  match rest with
  | [] => if ip = [] then none else some (digitsVal ip)
  | '.' :: fr =>
    let fd := fr.takeWhile isDigit
    let rest2 := fr.dropWhile isDigit
    if rest2 ≠ [] then none
    else if ip = [] ∧ fd = [] then none
    else some ((digitsVal ip : ℚ) + (digitsVal fd : ℚ) / (10 ^ fd.length : ℚ))
  | _ => none

/-- Model of JS `Number(...)` on a trimmed non-empty string, with optional
sign; `none` models NaN. -/
def jsNumber : Str → Option ℚ
  | '-' :: r => (jsNumberMag r).map (fun q => -q)
  | '+' :: r => jsNumberMag r
  | l => jsNumberMag l

/-- Model of `toNumber` (src/script.js lines 95-101): trim, empty gives 0,
otherwise numeric parse with non-finite results (NaN) coerced to 0. -/
def toNumber (s : Str) : ℚ :=
  let t := trim s
  if t = [] then 0 else (jsNumber t).getD 0

/-- Model of `safeDiv` (src/script.js lines 103-106): division that yields 0
when the denominator is 0.  The `Number.isFinite` guards of the source are
vacuously true in the rational model. -/
def safeDiv (a b : ℚ) : ℚ :=
  if b = 0 then 0 else a / b

/-- Fields of a parsed CSV row accessed by the statistics/chart builder
(src/script.js lines 1703-1724).  A column missing from the CSV reads as the
empty string (in JS the missing key reads as `undefined`, which the numeric
and string coercions of the source send to the same results as `""`). -/
structure Row where
  amount : Str := []
  amount_gbp : Str := []
  date : Str := []
  project_name : Str := []
  duration_hours : Str := []
deriving DecidableEq

/-- Dataset-wide test of `chooseIncomeAccessor` (src/script.js lines 129-135):
whether any row has a non-empty `amount_gbp` value. -/
def chooseIncomeAnyGbp (rows : List Row) : Bool :=
  rows.any (fun r => trim r.amount_gbp != [])

/-- Label of the resolved income accessor (src/script.js line 132). -/
def incomeLabel (rows : List Row) : Str :=
  if chooseIncomeAnyGbp rows then "amount_gbp".toList else "amount".toList

/-- Per-row income under the resolved accessor (src/script.js line 133):
`toNumber(anyGbp ? r.amount_gbp : r.amount)`. -/
def incomeGet (rows : List Row) (r : Row) : ℚ :=
  toNumber (if chooseIncomeAnyGbp rows then r.amount_gbp else r.amount)

theorem toNumber_of_trim_nil (s : Str) (h : trim s = []) : toNumber s = 0 := by
  rw [toNumber]
  simp [h]

/-- Claim C8: the income column choice is resolved once per dataset.  If any
row of the dataset has a non-empty `amount_gbp` value then every row's income
is read from `amount_gbp` (so a row whose own `amount_gbp` cell is blank gets
income 0 even when its `amount` cell holds a non-zero number); if no row has
one, every row's income is read from `amount`. -/
theorem C8_income_accessor (rows rows2 : List Row) (r r2 : Row)
    (hany : ∃ r' ∈ rows, trim r'.amount_gbp ≠ [])
    (_hr : r ∈ rows)
    (hempty : trim r.amount_gbp = [])
    (hamount : toNumber r.amount ≠ 0)
    (hnone : ∀ r' ∈ rows2, trim r'.amount_gbp = [])
    (_hr2 : r2 ∈ rows2) :
    incomeLabel rows = "amount_gbp".toList ∧
    incomeGet rows r = toNumber r.amount_gbp ∧
    incomeGet rows r = 0 ∧
    incomeGet rows r ≠ toNumber r.amount ∧
    incomeLabel rows2 = "amount".toList ∧
    incomeGet rows2 r2 = toNumber r2.amount := by
  have hgbp : chooseIncomeAnyGbp rows = true := by
    rcases hany with ⟨r', hr', hne⟩
    rw [chooseIncomeAnyGbp, List.any_eq_true]
    exact ⟨r', hr', by simpa using hne⟩
  have hnogbp : chooseIncomeAnyGbp rows2 = false := by
    rw [chooseIncomeAnyGbp]
    rw [List.any_eq_false]
    intro r' hr'
    simpa using hnone r' hr'
  have hzero : incomeGet rows r = 0 := by
    rw [incomeGet, if_pos hgbp]
    exact toNumber_of_trim_nil _ hempty
  refine ⟨by rw [incomeLabel, if_pos hgbp], by rw [incomeGet, if_pos hgbp],
    hzero, ?_, by rw [incomeLabel, if_neg (by simp [hnogbp])],
    by rw [incomeGet, if_neg (by simp [hnogbp])]⟩
  rw [hzero]
  exact fun h => hamount h.symm

/-- Claim C8 witness: a two-row dataset where the second row makes
`amount_gbp` the dataset-wide choice, so the first row (blank `amount_gbp`,
`amount` 100) gets income 0; and a one-row dataset without `amount_gbp`
values, which uses `amount`. -/
theorem C8_income_accessor_witness :
    incomeLabel [{ amount := "100".toList : Row },
      { amount := "50".toList, amount_gbp := "7".toList : Row }] =
      "amount_gbp".toList ∧
    incomeGet [{ amount := "100".toList : Row },
      { amount := "50".toList, amount_gbp := "7".toList : Row }]
      { amount := "100".toList : Row } =
      toNumber ({ amount := "100".toList : Row }).amount_gbp ∧
    incomeGet [{ amount := "100".toList : Row },
      { amount := "50".toList, amount_gbp := "7".toList : Row }]
      { amount := "100".toList : Row } = 0 ∧
    incomeGet [{ amount := "100".toList : Row },
      { amount := "50".toList, amount_gbp := "7".toList : Row }]
      { amount := "100".toList : Row } ≠
      toNumber ({ amount := "100".toList : Row }).amount ∧
    incomeLabel [{ amount := "3".toList : Row }] = "amount".toList ∧
    incomeGet [{ amount := "3".toList : Row }] { amount := "3".toList : Row } =
      toNumber ({ amount := "3".toList : Row }).amount :=
  C8_income_accessor
    [{ amount := "100".toList }, { amount := "50".toList, amount_gbp := "7".toList }]
    [{ amount := "3".toList }]
    { amount := "100".toList } { amount := "3".toList }
    (by decide) (by decide) (by decide) (by with_unfolding_all decide)
    (by decide) (by decide)

/-- Civil date (year, month, day) of the host `Date` model, with local time
equal to UTC. -/
structure OWDate where
  year : Nat
  month : Nat
  day : Nat
deriving DecidableEq

/-- Gregorian leap-year rule of the host calendar. -/
def isLeap (y : Nat) : Bool :=
  (y % 4 == 0 && y % 100 != 0) || y % 400 == 0

/-- Days in a month of the host calendar. -/
def daysInMonth (y m : Nat) : Nat :=
  if m = 2 then (if isLeap y then 29 else 28)
  else if m = 4 ∨ m = 6 ∨ m = 9 ∨ m = 11 then 30
  else 31

/-- The civil triples that denote actual dates. -/
def ValidDate (d : OWDate) : Prop :=
  1 ≤ d.month ∧ d.month ≤ 12 ∧ 1 ≤ d.day ∧ d.day ≤ daysInMonth d.year d.month

instance (d : OWDate) : Decidable (ValidDate d) := by
  rw [ValidDate]
  infer_instance

/-- Model of `toDateObj` (src/script.js lines 141-146): trim, then parse with
the host `Date` constructor, yielding `null` for unparseable input.  The host
constructor is modelled on ISO `YYYY-MM-DD` date-only strings, which it
accepts exactly when the triple denotes an actual date. -/
def toDateObj (s : Str) : Option OWDate :=
  match trim s with
  | [y1, y2, y3, y4, '-', m1, m2, '-', d1, d2] =>
    if isDigit y1 ∧ isDigit y2 ∧ isDigit y3 ∧ isDigit y4 ∧ isDigit m1 ∧
        isDigit m2 ∧ isDigit d1 ∧ isDigit d2 then
      let date : OWDate :=
        ⟨digitsVal [y1, y2, y3, y4], digitsVal [m1, m2], digitsVal [d1, d2]⟩
      if ValidDate date then some date else none
    else none
  | _ => none

/-- Days-before-month table of the host calendar (cumulative month lengths,
with the leap day from March on). -/
def monthOffset (L : Bool) (m : Nat) : Nat :=
  (if m = 1 then 0 else if m = 2 then 31 else
    if m = 3 then 59 else if m = 4 then 90 else if m = 5 then 120 else
    if m = 6 then 151 else if m = 7 then 181 else if m = 8 then 212 else
    if m = 9 then 243 else if m = 10 then 273 else if m = 11 then 304 else
    334) +
  (if 3 ≤ m ∧ L then 1 else 0)

/-- Day number of January 1 of a year, counted in days from the epoch
1970-01-01 (host calendar model; integer division is floor division on the
year range used by the program). -/
def zjan1 (y : ℤ) : ℤ :=
  365 * (y - 1) + (y - 1) / 4 - (y - 1) / 100 + (y - 1) / 400 - 719162

/-- Day number of a civil date, counted in days from the epoch 1970-01-01
(the host `Date.UTC(y, m-1, d)` value divided by 86400000). -/
def daysFromCivil (d : OWDate) : ℤ :=
  zjan1 d.year + monthOffset (isLeap d.year) d.month + d.day - 1

/-- Millisecond timestamp of the midnight of a civil date (host
`getTime()`). -/
def tsOf (d : OWDate) : ℤ :=
  daysFromCivil d * 86400000

/-- Model of `getUTCDay` on a day number: 0 = Sunday … 6 = Saturday
(1970-01-01 was a Thursday). -/
def getUTCDay (n : ℤ) : ℤ :=
  (n + 4) % 7

/-- Year of the civil date with the given day number (model of
`getUTCFullYear`): a linear approximation corrected by at most one year. -/
def yearOfDay (n : ℤ) : ℤ :=
  let a := (400 * n + 287664800) / 146097 + 1
  if n < zjan1 (a + 1) then a else a + 1

/-- Model of `isoWeekKey` (src/script.js lines 148-157): shift to the
Thursday of the date's Monday-based week, take that Thursday's year and the
ceiling of its one-based day-of-year over 7. -/
def isoWeekKey (date : OWDate) : Str :=
  let n := daysFromCivil date
  let g := getUTCDay n
  let day : ℤ := if g = 0 then 7 else g
  let nThu := n + 4 - day
  let yT := yearOfDay nThu
  let weekNo := (nThu - zjan1 yT + 7) / 7
  natChars yT.toNat ++ '-' :: 'W' :: pad2 weekNo.toNat

/-- Model of `formatGroupKey` (src/script.js lines 159-170): bucket key of a
date under a grouping mode, defaulting to the day key for unknown modes. -/
def formatGroupKey (date : OWDate) (mode : String) : Str :=
  if mode = "day" then
    natChars date.year ++ '-' :: pad2 date.month ++ '-' :: pad2 date.day
  else if mode = "month" then natChars date.year ++ '-' :: pad2 date.month
  else if mode = "year" then natChars date.year
  else if mode = "week" then isoWeekKey date
  else natChars date.year ++ '-' :: pad2 date.month ++ '-' :: pad2 date.day

theorem natCharsAux_eq : ∀ f1 f2 n : Nat, n < f1 → n < f2 →
    natCharsAux f1 n = natCharsAux f2 n
  | f1 + 1, f2 + 1, n, h1, h2 => by
    rw [natCharsAux, natCharsAux]
    by_cases h : n < 10
    · simp [h]
    · simp only [h, if_false]
      have hd : n / 10 < n := Nat.div_lt_self (by omega) (by omega)
      rw [natCharsAux_eq f1 f2 (n / 10) (by omega) (by omega)]

theorem natChars_step (n : Nat) (h : 10 ≤ n) :
    natChars n = natChars (n / 10) ++ [digitChar (n % 10)] := by
  rw [natChars, natChars, natCharsAux]
  simp only [Nat.not_lt.2 h, if_false]
  rw [natCharsAux_eq n (n / 10 + 1) (n / 10)
    (Nat.div_lt_self (by omega) (by omega)) (Nat.lt_succ_self _)]

theorem natChars_small (n : Nat) (h : n < 10) : natChars n = [digitChar n] := by
  rw [natChars, natCharsAux]
  simp [h]

theorem natChars4 (y : Nat) (h1 : 1000 ≤ y) (h2 : y < 10000) :
    natChars y = [digitChar (y / 1000), digitChar (y / 100 % 10),
      digitChar (y / 10 % 10), digitChar (y % 10)] := by
  rw [natChars_step y (by omega),
    natChars_step (y / 10) (by omega),
    natChars_step (y / 10 / 10) (by omega),
    natChars_small (y / 10 / 10 / 10) (by omega)]
  rw [Nat.div_div_eq_div_mul, Nat.div_div_eq_div_mul, Nat.div_div_eq_div_mul]
  norm_num

theorem pad2_eq (n : Nat) (h : n < 100) :
    pad2 n = [digitChar (n / 10), digitChar (n % 10)] := by
  rw [pad2]
  by_cases h10 : n < 10
  · rw [if_pos h10, natChars_small n h10]
    have : n / 10 = 0 := by omega
    rw [this, Nat.mod_eq_of_lt h10]
    rfl
  · rw [if_neg h10, natChars_step n (by omega),
      natChars_small (n / 10) (by omega)]
    rfl

theorem digitChar_lt_iff : ∀ a < 10, ∀ b < 10,
    (digitChar a < digitChar b ↔ a < b) := by decide

theorem digitChar_inj : ∀ a < 10, ∀ b < 10,
    digitChar a = digitChar b → a = b := by decide

theorem strLtB_append_same : ∀ a u v : Str,
    strLtB (a ++ u) (a ++ v) = strLtB u v
  | [], _, _ => rfl
  | c :: a', u, v => by
    simp only [List.cons_append, strLtB, lt_self_iff_false, decide_False,
      Bool.false_or, decide_True, Bool.true_and]
    exact strLtB_append_same a' u v

theorem strLtB_append_left : ∀ a b u v : Str, a.length = b.length →
    strLtB a b = true → strLtB (a ++ u) (b ++ v) = true
  | [], [], _, _, _, hlt => by simp [strLtB] at hlt
  | [], _ :: _, _, _, hlen, _ => by simp at hlen
  | _ :: _, [], _, _, hlen, _ => by simp at hlen
  | x :: a', y :: b', u, v, hlen, hlt => by
    simp only [strLtB, Bool.or_eq_true, Bool.and_eq_true, decide_eq_true_eq] at hlt ⊢
    rcases hlt with h | ⟨rfl, h⟩
    · exact Or.inl h
    · exact Or.inr ⟨rfl, strLtB_append_left a' b' u v (by simpa using hlen) h⟩

theorem pad2_lt (a b : Nat) (ha : a < 100) (hb : b < 100) (h : a < b) :
    strLtB (pad2 a) (pad2 b) = true := by
  rw [pad2_eq a ha, pad2_eq b hb]
  simp only [strLtB, Bool.or_eq_true, Bool.and_eq_true, decide_eq_true_eq]
  rcases Nat.lt_trichotomy (a / 10) (b / 10) with h10 | h10 | h10
  · exact Or.inl ((digitChar_lt_iff _ (by omega) _ (by omega)).2 h10)
  · refine Or.inr ⟨congrArg digitChar h10, Or.inl ?_⟩
    exact (digitChar_lt_iff _ (by omega) _ (by omega)).2 (by omega)
  · omega

theorem natChars4_lt (a b : Nat) (ha : 1000 ≤ a) (hb : b < 10000) (h : a < b) :
    strLtB (natChars a) (natChars b) = true := by
  rw [natChars4 a ha (by omega), natChars4 b (by omega) hb]
  simp only [strLtB, Bool.or_eq_true, Bool.and_eq_true, decide_eq_true_eq]
  rcases Nat.lt_trichotomy (a / 1000) (b / 1000) with h1 | h1 | h1
  · exact Or.inl ((digitChar_lt_iff _ (by omega) _ (by omega)).2 h1)
  · refine Or.inr ⟨congrArg digitChar h1, ?_⟩
    rcases Nat.lt_trichotomy (a / 100 % 10) (b / 100 % 10) with h2 | h2 | h2
    · exact Or.inl ((digitChar_lt_iff _ (by omega) _ (by omega)).2 h2)
    · refine Or.inr ⟨congrArg digitChar h2, ?_⟩
      rcases Nat.lt_trichotomy (a / 10 % 10) (b / 10 % 10) with h3 | h3 | h3
      · exact Or.inl ((digitChar_lt_iff _ (by omega) _ (by omega)).2 h3)
      · refine Or.inr ⟨congrArg digitChar h3, Or.inl ?_⟩
        exact (digitChar_lt_iff _ (by omega) _ (by omega)).2 (by omega)
      · omega
    · omega
  · omega

theorem natChars4_len (y : Nat) (h1 : 1000 ≤ y) (h2 : y < 10000) :
    (natChars y).length = 4 := by
  rw [natChars4 y h1 h2]
  rfl

/-- Lexicographic less-or-equal on bucket keys, the order the claim compares
same-granularity keys in. -/
def KeyLe (a b : Str) : Prop :=
  strLtB a b = true ∨ a = b

/-- Chronological strict order on civil dates. -/
def dateLt (d1 d2 : OWDate) : Prop :=
  d1.year < d2.year ∨ (d1.year = d2.year ∧
    (d1.month < d2.month ∨ (d1.month = d2.month ∧ d1.day < d2.day)))

instance (d1 d2 : OWDate) : Decidable (dateLt d1 d2) := by
  rw [dateLt]
  infer_instance

theorem zjan1_mono (a b : ℤ) (h : a ≤ b) : zjan1 a ≤ zjan1 b := by
  simp only [zjan1]
  omega

theorem zjan1_gap_bounds (y : ℤ) :
    zjan1 y + 365 ≤ zjan1 (y + 1) ∧ zjan1 (y + 1) ≤ zjan1 y + 366 := by
  simp only [zjan1]
  omega

theorem isLeap_iff (y : Nat) :
    isLeap y = true ↔ ((y % 4 = 0 ∧ y % 100 ≠ 0) ∨ y % 400 = 0) := by
  rw [isLeap]
  simp [Nat.beq_eq_true_eq]

theorem zjan1_gap (y : Nat) :
    zjan1 ((y : ℤ) + 1) = zjan1 (y : ℤ) + 365 + (if isLeap y then 1 else 0) := by
  by_cases hL : isLeap y = true
  · rw [if_pos hL]
    rw [isLeap_iff] at hL
    simp only [zjan1]
    omega
  · rw [if_neg hL]
    have hL' := hL
    rw [isLeap_iff] at hL'
    push_neg at hL'
    simp only [zjan1]
    omega

theorem monthOffset_day_lt (y : Nat) : ∀ m < 13, ∀ d < 32, 1 ≤ m → 1 ≤ d →
    d ≤ daysInMonth y m →
    monthOffset (isLeap y) m + d - 1 < 365 + (if isLeap y then 1 else 0) := by
  rw [show daysInMonth y = (fun m => if m = 2 then (if isLeap y then 29 else 28)
    else if m = 4 ∨ m = 6 ∨ m = 9 ∨ m = 11 then 30 else 31) from by
      funext m; rw [daysInMonth]]
  cases isLeap y <;> decide

theorem monthOffset_le (y : Nat) : ∀ m1 < 13, ∀ m2 < 13, 1 ≤ m1 → m1 < m2 →
    monthOffset (isLeap y) m1 + daysInMonth y m1 ≤ monthOffset (isLeap y) m2 := by
  rw [show daysInMonth y = (fun m => if m = 2 then (if isLeap y then 29 else 28)
    else if m = 4 ∨ m = 6 ∨ m = 9 ∨ m = 11 then 30 else 31) from by
      funext m; rw [daysInMonth]]
  cases isLeap y <;> decide

theorem daysFromCivil_bounds (d : OWDate) (hv : ValidDate d) :
    zjan1 d.year ≤ daysFromCivil d ∧ daysFromCivil d < zjan1 ((d.year : ℤ) + 1) := by
  rcases hv with ⟨hm1, hm2, hd1, hd2⟩
  have hdim : d.day ≤ 31 := by
    have := hd2
    rw [daysInMonth] at this
    split_ifs at this <;> omega
  constructor
  · rw [daysFromCivil]
    have : (1 : ℤ) ≤ (d.day : ℤ) := by exact_mod_cast hd1
    have h0 : (0 : ℤ) ≤ (monthOffset (isLeap d.year) d.month : ℤ) := by positivity
    omega
  · have hlt := monthOffset_day_lt d.year d.month (by omega) d.day (by omega)
      hm1 hd1 hd2
    rw [zjan1_gap d.year, daysFromCivil]
    by_cases hL : isLeap d.year = true
    · simp only [hL, if_true] at hlt ⊢
      omega
    · have hLf : isLeap d.year = false := by
        revert hL
        cases isLeap d.year <;> simp
      simp only [hLf, Bool.false_eq_true, if_false] at hlt ⊢
      omega

theorem daysFromCivil_strictMono (d1 d2 : OWDate) (hv1 : ValidDate d1)
    (hv2 : ValidDate d2) (h : dateLt d1 d2) :
    daysFromCivil d1 < daysFromCivil d2 := by
  rcases h with hy | ⟨hy, hm | ⟨hm, hd⟩⟩
  · have h1 := (daysFromCivil_bounds d1 hv1).2
    have h2 := (daysFromCivil_bounds d2 hv2).1
    have : zjan1 ((d1.year : ℤ) + 1) ≤ zjan1 d2.year := by
      refine zjan1_mono _ _ ?_
      exact_mod_cast hy
    omega
  · rcases hv1 with ⟨hm1, hm2, hd1, hd2⟩
    rcases hv2 with ⟨hm1', hm2', hd1', _⟩
    have hle := monthOffset_le d1.year d1.month (by omega) d2.month (by omega)
      hm1 hm
    rw [daysFromCivil, daysFromCivil, hy]
    rw [hy] at hle hd2
    have hc1 : (monthOffset (isLeap d2.year) d1.month : ℤ) +
        (daysInMonth d2.year d1.month : ℤ) ≤
        (monthOffset (isLeap d2.year) d2.month : ℤ) := by exact_mod_cast hle
    have hc2 : (d1.day : ℤ) ≤ (daysInMonth d2.year d1.month : ℤ) := by
      exact_mod_cast hd2
    have hc3 : (1 : ℤ) ≤ (d2.day : ℤ) := by exact_mod_cast hd1'
    omega
  · rw [daysFromCivil, daysFromCivil, hy, hm]
    have : (d1.day : ℤ) < (d2.day : ℤ) := by exact_mod_cast hd
    omega

theorem yearOfDay_eq (y n : ℤ) (h1 : zjan1 y ≤ n) (h2 : n < zjan1 (y + 1)) :
    yearOfDay n = y := by
  have hA1 : y - 2 ≤ (400 * n + 287664800) / 146097 := by
    simp only [zjan1] at h1
    omega
  have hA2 : (400 * n + 287664800) / 146097 ≤ y - 1 := by
    simp only [zjan1] at h2
    omega
  simp only [yearOfDay]
  rcases (by omega : (400 * n + 287664800) / 146097 = y - 2 ∨
      (400 * n + 287664800) / 146097 = y - 1) with hA | hA
  · rw [hA, show y - 2 + 1 + 1 = y from by ring,
      if_neg (not_lt.2 h1)]
  · rw [hA, show y - 1 + 1 + 1 = y + 1 from by ring,
      if_pos h2]
    ring

theorem nThu_eq (n : ℤ) :
    n + 4 - (if getUTCDay n = 0 then 7 else getUTCDay n) = 7 * ((n + 3) / 7) := by
  rw [getUTCDay]
  split <;> omega

/-- Day number of the Thursday of the Monday-based week containing day `n`
(closed form of the shift performed by `isoWeekKey`). -/
def thuOf (n : ℤ) : ℤ :=
  7 * ((n + 3) / 7)

theorem isoWeekKey_eq (d : OWDate) :
    isoWeekKey d = natChars (yearOfDay (thuOf (daysFromCivil d))).toNat ++
      '-' :: 'W' :: pad2 ((thuOf (daysFromCivil d) -
        zjan1 (yearOfDay (thuOf (daysFromCivil d))) + 7) / 7).toNat := by
  simp only [isoWeekKey, thuOf]
  rw [nThu_eq]

theorem zjan1_1000 : zjan1 1000 = -354285 := by decide
theorem zjan1_10000 : zjan1 10000 = 2932897 := by decide

theorem isoYear_bracket (d : OWDate) (hv : ValidDate d) (hy1 : 1000 ≤ d.year)
    (hy2 : d.year ≤ 9999) :
    zjan1 (yearOfDay (thuOf (daysFromCivil d))) ≤ thuOf (daysFromCivil d) ∧
    thuOf (daysFromCivil d) < zjan1 (yearOfDay (thuOf (daysFromCivil d)) + 1) ∧
    1000 ≤ yearOfDay (thuOf (daysFromCivil d)) ∧
    yearOfDay (thuOf (daysFromCivil d)) ≤ 9999 := by
  have hb := daysFromCivil_bounds d hv
  have ht : daysFromCivil d - 3 ≤ thuOf (daysFromCivil d) ∧
      thuOf (daysFromCivil d) ≤ daysFromCivil d + 3 := by
    rw [thuOf]
    omega
  have hy1' : (1000 : ℤ) ≤ (d.year : ℤ) := by exact_mod_cast hy1
  have hy2' : (d.year : ℤ) ≤ 9999 := by exact_mod_cast hy2
  have hmono1000 : zjan1 1000 ≤ zjan1 (d.year : ℤ) := zjan1_mono _ _ hy1'
  rcases lt_trichotomy (thuOf (daysFromCivil d)) (zjan1 (d.year : ℤ)) with hc | hc | hc
  · -- the Thursday falls in the previous year
    have hgap := zjan1_gap_bounds ((d.year : ℤ) - 1)
    rw [show (d.year : ℤ) - 1 + 1 = (d.year : ℤ) from by ring] at hgap
    have hlow : zjan1 ((d.year : ℤ) - 1) ≤ thuOf (daysFromCivil d) := by omega
    have hyd : yearOfDay (thuOf (daysFromCivil d)) = (d.year : ℤ) - 1 := by
      refine yearOfDay_eq _ _ hlow ?_
      rw [show (d.year : ℤ) - 1 + 1 = (d.year : ℤ) from by ring]
      exact hc
    -- the year 1000 boundary cannot be crossed: Thursdays are multiples of 7
    have hnever : ¬ ((d.year : ℤ) = 1000) := by
      intro h1000
      have h7 : thuOf (daysFromCivil d) = 7 * ((daysFromCivil d + 3) / 7) := rfl
      rw [h1000] at hc hb
      rw [zjan1_1000] at hc hb
      omega
    rw [hyd]
    refine ⟨hlow, ?_, by omega, by omega⟩
    rw [show (d.year : ℤ) - 1 + 1 = (d.year : ℤ) from by ring]
    exact hc
  · rw [yearOfDay_eq _ _ (le_of_eq hc.symm) (by omega)]
    exact ⟨le_of_eq hc.symm, by omega, hy1', hy2'⟩
  · by_cases hc2 : thuOf (daysFromCivil d) < zjan1 ((d.year : ℤ) + 1)
    · rw [yearOfDay_eq _ _ (le_of_lt hc) hc2]
      exact ⟨le_of_lt hc, hc2, hy1', hy2'⟩
    · -- the Thursday falls in the next year
      push_neg at hc2
      have hgap := zjan1_gap_bounds ((d.year : ℤ) + 1)
      have hhigh : thuOf (daysFromCivil d) < zjan1 ((d.year : ℤ) + 1 + 1) := by omega
      have hyd : yearOfDay (thuOf (daysFromCivil d)) = (d.year : ℤ) + 1 :=
        yearOfDay_eq _ _ hc2 hhigh
      have hnever : ¬ ((d.year : ℤ) = 9999) := by
        intro h9999
        have h7 : thuOf (daysFromCivil d) = 7 * ((daysFromCivil d + 3) / 7) := rfl
        rw [h9999] at hc2 hb
        have h10000 : zjan1 ((9999 : ℤ) + 1) = 2932897 := by decide
        rw [h10000] at hc2 hb
        omega
      rw [hyd]
      exact ⟨hc2, hhigh, by omega, by omega⟩

theorem isDigit_bounds (c : Char) (h : isDigit c = true) :
    48 ≤ c.toNat ∧ c.toNat ≤ 57 := by
  rw [isDigit, Bool.and_eq_true, decide_eq_true_eq, decide_eq_true_eq] at h
  rcases h with ⟨h1, h2⟩
  rw [Char.le_def] at h1 h2
  exact ⟨h1, h2⟩

theorem digitsVal2 (a b : Char) :
    digitsVal [a, b] = 10 * (a.toNat - 48) + (b.toNat - 48) := by
  simp [digitsVal, List.foldl]

theorem digitsVal4 (a b c d : Char) :
    digitsVal [a, b, c, d] = 1000 * (a.toNat - 48) + 100 * (b.toNat - 48) +
      10 * (c.toNat - 48) + (d.toNat - 48) := by
  simp [digitsVal, List.foldl]
  ring

theorem toDateObj_valid (s : Str) (d : OWDate) (h : toDateObj s = some d) :
    ValidDate d ∧ d.year ≤ 9999 ∧ d.month ≤ 99 ∧ d.day ≤ 99 := by
  rw [toDateObj] at h
  split at h
  · rename_i y1 y2 y3 y4 m1 m2 dd1 dd2 heq
    split_ifs at h with hdig
    · have h2 : (if ValidDate (⟨digitsVal [y1, y2, y3, y4], digitsVal [m1, m2],
          digitsVal [dd1, dd2]⟩ : OWDate) then
          some (⟨digitsVal [y1, y2, y3, y4], digitsVal [m1, m2],
            digitsVal [dd1, dd2]⟩ : OWDate) else none) = some d := h
      split_ifs at h2 with hval
      injection h2 with h'
      subst h'
      rcases hdig with ⟨hy1, hy2, hy3, hy4, hm1, hm2, hd1, hd2⟩
      refine ⟨hval, ?_, ?_, ?_⟩
      · have b1 := isDigit_bounds y1 hy1
        have b2 := isDigit_bounds y2 hy2
        have b3 := isDigit_bounds y3 hy3
        have b4 := isDigit_bounds y4 hy4
        show digitsVal [y1, y2, y3, y4] ≤ 9999
        rw [digitsVal4]
        omega
      · have b1 := isDigit_bounds m1 hm1
        have b2 := isDigit_bounds m2 hm2
        show digitsVal [m1, m2] ≤ 99
        rw [digitsVal2]
        omega
      · have b1 := isDigit_bounds dd1 hd1
        have b2 := isDigit_bounds dd2 hd2
        show digitsVal [dd1, dd2] ≤ 99
        rw [digitsVal2]
        omega
  · exact absurd h (by simp)

theorem yearBlock_lt (y1 y2 : Nat) (u v : Str) (ha : 1000 ≤ y1) (hb : y2 ≤ 9999)
    (hlt : y1 < y2) :
    strLtB (natChars y1 ++ u) (natChars y2 ++ v) = true :=
  strLtB_append_left _ _ u v
    (by rw [natChars4_len y1 ha (by omega), natChars4_len y2 (by omega) (by omega)])
    (natChars4_lt y1 y2 ha (by omega) hlt)

theorem pad2Block_lt (m1 m2 : Nat) (u v : Str) (ha : m1 < 100) (hb : m2 < 100)
    (hlt : m1 < m2) :
    strLtB (pad2 m1 ++ u) (pad2 m2 ++ v) = true :=
  strLtB_append_left _ _ u v
    (by rw [pad2_eq m1 ha, pad2_eq m2 hb]; rfl) (pad2_lt m1 m2 ha hb hlt)

theorem strLtB_prefix (a u v : Str) (h : strLtB u v = true) :
    strLtB (a ++ u) (a ++ v) = true := by
  rw [strLtB_append_same]
  exact h

theorem isoWeekKey_mono (d1 d2 : OWDate) (hv1 : ValidDate d1) (hv2 : ValidDate d2)
    (hy11 : 1000 ≤ d1.year) (hy12 : d1.year ≤ 9999)
    (hy21 : 1000 ≤ d2.year) (hy22 : d2.year ≤ 9999)
    (hN : daysFromCivil d1 ≤ daysFromCivil d2) :
    KeyLe (isoWeekKey d1) (isoWeekKey d2) := by
  obtain ⟨hb1l, hb1r, hb1lo, hb1hi⟩ := isoYear_bracket d1 hv1 hy11 hy12
  obtain ⟨hb2l, hb2r, hb2lo, hb2hi⟩ := isoYear_bracket d2 hv2 hy21 hy22
  have hthu : thuOf (daysFromCivil d1) ≤ thuOf (daysFromCivil d2) := by
    rw [thuOf, thuOf]
    omega
  have hyT : yearOfDay (thuOf (daysFromCivil d1)) ≤
      yearOfDay (thuOf (daysFromCivil d2)) := by
    by_contra hcon
    push_neg at hcon
    have : zjan1 (yearOfDay (thuOf (daysFromCivil d2)) + 1) ≤
        zjan1 (yearOfDay (thuOf (daysFromCivil d1))) :=
      zjan1_mono _ _ (by omega)
    omega
  have hw1 : 1 ≤ (thuOf (daysFromCivil d1) -
      zjan1 (yearOfDay (thuOf (daysFromCivil d1))) + 7) / 7 := by omega
  have hgap1 := zjan1_gap_bounds (yearOfDay (thuOf (daysFromCivil d1)))
  have hgap2 := zjan1_gap_bounds (yearOfDay (thuOf (daysFromCivil d2)))
  have hw1hi : (thuOf (daysFromCivil d1) -
      zjan1 (yearOfDay (thuOf (daysFromCivil d1))) + 7) / 7 ≤ 53 := by omega
  have hw2 : 1 ≤ (thuOf (daysFromCivil d2) -
      zjan1 (yearOfDay (thuOf (daysFromCivil d2))) + 7) / 7 := by omega
  have hw2hi : (thuOf (daysFromCivil d2) -
      zjan1 (yearOfDay (thuOf (daysFromCivil d2))) + 7) / 7 ≤ 53 := by omega
  rw [isoWeekKey_eq d1, isoWeekKey_eq d2]
  rcases lt_or_eq_of_le hyT with hyT' | hyT'
  · left
    refine yearBlock_lt _ _ _ _ ?_ ?_ ?_
    · omega
    · omega
    · omega
  · rw [hyT']
    have hwmono : (thuOf (daysFromCivil d1) -
        zjan1 (yearOfDay (thuOf (daysFromCivil d2))) + 7) / 7 ≤
        (thuOf (daysFromCivil d2) -
          zjan1 (yearOfDay (thuOf (daysFromCivil d2))) + 7) / 7 := by omega
    rw [hyT'] at hw1 hw1hi
    rcases lt_or_eq_of_le hwmono with hw' | hw'
    · left
      rw [show ('-' :: 'W' :: pad2 ((thuOf (daysFromCivil d1) -
          zjan1 (yearOfDay (thuOf (daysFromCivil d2))) + 7) / 7).toNat) =
          ['-', 'W'] ++ pad2 ((thuOf (daysFromCivil d1) -
          zjan1 (yearOfDay (thuOf (daysFromCivil d2))) + 7) / 7).toNat from rfl]
      rw [show ('-' :: 'W' :: pad2 ((thuOf (daysFromCivil d2) -
          zjan1 (yearOfDay (thuOf (daysFromCivil d2))) + 7) / 7).toNat) =
          ['-', 'W'] ++ pad2 ((thuOf (daysFromCivil d2) -
          zjan1 (yearOfDay (thuOf (daysFromCivil d2))) + 7) / 7).toNat from rfl]
      rw [← List.append_assoc, ← List.append_assoc]
      refine strLtB_prefix _ _ _ ?_
      refine pad2_lt _ _ ?_ ?_ ?_ <;> omega
    · rw [hw']
      right
      rfl

theorem dayKey_mono (d1 d2 : OWDate) (hv1 : ValidDate d1) (hv2 : ValidDate d2)
    (hy11 : 1000 ≤ d1.year) (hy22 : d2.year ≤ 9999) (hlt : dateLt d1 d2) :
    KeyLe (natChars d1.year ++ '-' :: pad2 d1.month ++ '-' :: pad2 d1.day)
      (natChars d2.year ++ '-' :: pad2 d2.month ++ '-' :: pad2 d2.day) := by
  rcases hlt with hy | ⟨hy, hm | ⟨hm, hd⟩⟩
  · left
    rw [List.append_assoc, List.append_assoc]
    exact yearBlock_lt _ _ _ _ hy11 hy22 hy
  · left
    rw [hy]
    rw [show natChars d2.year ++ '-' :: pad2 d1.month ++ '-' :: pad2 d1.day =
      (natChars d2.year ++ ['-']) ++ (pad2 d1.month ++ '-' :: pad2 d1.day) from by
        simp]
    rw [show natChars d2.year ++ '-' :: pad2 d2.month ++ '-' :: pad2 d2.day =
      (natChars d2.year ++ ['-']) ++ (pad2 d2.month ++ '-' :: pad2 d2.day) from by
        simp]
    refine strLtB_prefix _ _ _ (pad2Block_lt _ _ _ _ ?_ ?_ hm)
    · rcases hv1 with ⟨_, h, _, _⟩; omega
    · rcases hv2 with ⟨_, h, _, _⟩; omega
  · left
    rw [hy, hm]
    rw [show natChars d2.year ++ '-' :: pad2 d2.month ++ '-' :: pad2 d1.day =
      (natChars d2.year ++ '-' :: pad2 d2.month ++ ['-']) ++ pad2 d1.day from by
        simp]
    rw [show natChars d2.year ++ '-' :: pad2 d2.month ++ '-' :: pad2 d2.day =
      (natChars d2.year ++ '-' :: pad2 d2.month ++ ['-']) ++ pad2 d2.day from by
        simp]
    refine strLtB_prefix _ _ _ (pad2_lt _ _ ?_ ?_ hd)
    · have hin : d1.day ≤ daysInMonth d1.year d1.month := hv1.2.2.2
      rw [daysInMonth] at hin
      split_ifs at hin <;> omega
    · have hin : d2.day ≤ daysInMonth d2.year d2.month := hv2.2.2.2
      rw [daysInMonth] at hin
      split_ifs at hin <;> omega

theorem monthKey_mono (d1 d2 : OWDate) (hv1 : ValidDate d1) (hv2 : ValidDate d2)
    (hy11 : 1000 ≤ d1.year) (hy22 : d2.year ≤ 9999) (hlt : dateLt d1 d2) :
    KeyLe (natChars d1.year ++ '-' :: pad2 d1.month)
      (natChars d2.year ++ '-' :: pad2 d2.month) := by
  rcases hlt with hy | ⟨hy, hm | ⟨hm, _⟩⟩
  · left
    exact yearBlock_lt _ _ _ _ hy11 hy22 hy
  · left
    rw [hy]
    rw [show natChars d2.year ++ '-' :: pad2 d1.month =
      (natChars d2.year ++ ['-']) ++ pad2 d1.month from by simp]
    rw [show natChars d2.year ++ '-' :: pad2 d2.month =
      (natChars d2.year ++ ['-']) ++ pad2 d2.month from by simp]
    refine strLtB_prefix _ _ _ (pad2_lt _ _ ?_ ?_ hm)
    · rcases hv1 with ⟨_, h, _, _⟩; omega
    · rcases hv2 with ⟨_, h, _, _⟩; omega
  · right
    rw [hy, hm]

theorem yearKey_mono (d1 d2 : OWDate)
    (hy11 : 1000 ≤ d1.year) (hy22 : d2.year ≤ 9999) (hlt : dateLt d1 d2) :
    KeyLe (natChars d1.year) (natChars d2.year) := by
  rcases hlt with hy | ⟨hy, _⟩
  · left
    exact natChars4_lt _ _ hy11 (by omega) hy
  · right
    rw [hy]

/-- Claim C5 (amended): for parseable dates whose years are at least 1000 (so
that the unpadded year component of every bucket key has exactly four
digits), chronological order implies lexicographic order of same-granularity
bucket keys, for every grouping mode (day, week, month, year, and the
default fallback), including ISO-week keys across year boundaries. -/
theorem C5_bucketKey_mono (mode : String) (s1 s2 : Str) (d1 d2 : OWDate)
    (h1 : toDateObj s1 = some d1) (h2 : toDateObj s2 = some d2)
    (hy1 : 1000 ≤ d1.year) (hy2 : 1000 ≤ d2.year) (hlt : dateLt d1 d2) :
    KeyLe (formatGroupKey d1 mode) (formatGroupKey d2 mode) := by
  obtain ⟨hv1, hy19, _, _⟩ := toDateObj_valid s1 d1 h1
  obtain ⟨hv2, hy29, _, _⟩ := toDateObj_valid s2 d2 h2
  have hday := dayKey_mono d1 d2 hv1 hv2 hy1 hy29 hlt
  have hweek : KeyLe (isoWeekKey d1) (isoWeekKey d2) := by
    refine isoWeekKey_mono d1 d2 hv1 hv2 hy1 hy19 hy2 hy29 ?_
    exact le_of_lt (daysFromCivil_strictMono d1 d2 hv1 hv2 hlt)
  rw [formatGroupKey, formatGroupKey]
  split_ifs
  · exact hday
  · exact monthKey_mono d1 d2 hv1 hv2 hy1 hy29 hlt
  · exact yearKey_mono d1 d2 hy1 hy29 hlt
  · exact hweek
  · exact hday

/-- Claim C5 witness: the chronologically adjacent dates 2024-12-29 (Sunday)
and 2024-12-30 (Monday) lie in ISO weeks 2024-W52 and 2025-W01; the week
bucket keys respect the order across the year boundary. -/
theorem C5_bucketKey_mono_witness :
    KeyLe (formatGroupKey ⟨2024, 12, 29⟩ "week") (formatGroupKey ⟨2024, 12, 30⟩ "week") :=
  C5_bucketKey_mono "week" "2024-12-29".toList "2024-12-30".toList
    ⟨2024, 12, 29⟩ ⟨2024, 12, 30⟩ (by decide) (by decide) (by decide) (by decide)
    (by decide)

/-- Claim C5 counterexample: the claim as stated quantifies over all pairs of
parseable dates, but the year component of a bucket key is not zero-padded:
`0999-05-05` parses (year 999) and chronologically precedes `1000-01-01`,
yet its day bucket key `999-05-05` is lexicographically greater than
`1000-01-01`. -/
theorem C5_bucketKey_counterexample :
    toDateObj "0999-05-05".toList = some ⟨999, 5, 5⟩ ∧
    toDateObj "1000-01-01".toList = some ⟨1000, 1, 1⟩ ∧
    dateLt ⟨999, 5, 5⟩ ⟨1000, 1, 1⟩ ∧
    ¬ KeyLe (formatGroupKey ⟨999, 5, 5⟩ "day") (formatGroupKey ⟨1000, 1, 1⟩ "day") := by
  refine ⟨by decide, by decide, by decide, ?_⟩
  rw [KeyLe]
  decide

/-- Per-project value map of one bucket: a JS `Map` read through
`get(p) || 0`. -/
abbrev PerProj := Str → ℚ

/-- A date-keyed (or bucket-keyed) series: the insertion-ordered key list of
the JS `Map` together with its per-project values, read through
`get(d)?.get(p) || 0`. -/
structure Grouped where
  keys : List Str
  val : Str → Str → ℚ

/-- Loop of `regroup` (src/script.js lines 940-957): fold the filtered dates
into buckets keyed by `formatGroupKey`, skipping dates the date constructor
cannot parse, and summing per-project values into the destination bucket. -/
def regroupGo (mode : String) (src : Str → Str → ℚ) :
    List Str → Grouped → Grouped
  | [], acc => acc
  | d :: rest, acc =>
    match toDateObj d with
    | none => regroupGo mode src rest acc
    | some dt =>
      regroupGo mode src rest
        ⟨if formatGroupKey dt mode ∈ acc.keys then acc.keys
          else acc.keys ++ [formatGroupKey dt mode],
         fun k p => if k = formatGroupKey dt mode then acc.val k p + src d p
          else acc.val k p⟩

/-- Model of `regroup` (src/script.js lines 940-957). -/
def regroup (mode : String) (src : Str → Str → ℚ) (filteredDates : List Str) :
    Grouped :=
  regroupGo mode src filteredDates ⟨[], fun _ _ => 0⟩

/-- JS `Map.set`: overwrite in place if the key exists, else append. -/
def mapSet (m : List (Str × PerProj)) (k : Str) (v : PerProj) :
    List (Str × PerProj) :=
  if m.any (fun e => e.1 = k) then
    m.map (fun e => if e.1 = k then (k, v) else e)
  else m ++ [(k, v)]

/-- Pointwise update of a `Map`-as-function at one key. -/
def updAt (f : PerProj) (p : Str) (v : ℚ) : PerProj :=
  fun q => if q = p then v else f q

/-- Inner loop of `applyCumulative` (src/script.js lines 964-972): for each
project in order, add the bucket value to the running total and record the
new total in the bucket's cumulative map. -/
def cumInner (gk : PerProj) : List Str → PerProj → PerProj → PerProj × PerProj
  | [], running, cum => (running, cum)
  | p :: rest, running, cum =>
    cumInner gk rest (updAt running p (running p + gk p))
      (updAt cum p (running p + gk p))

/-- Key loop of `applyCumulative` (src/script.js lines 959-975). -/
def cumGo (gval : Str → PerProj) (projects : List Str) :
    List Str → PerProj → List (Str × PerProj) → List (Str × PerProj)
  | [], _, out => out
  | k :: ks, running, out =>
    cumGo gval projects ks (cumInner (gval k) projects running (fun _ => 0)).1
      (mapSet out k (cumInner (gval k) projects running (fun _ => 0)).2)

/-- Model of `applyCumulative` (src/script.js lines 959-975): running
per-project sums over the sorted bucket keys, returned as the out `Map`'s
entry list. -/
def applyCumulative (g : Grouped) (projects : List Str) :
    List (Str × PerProj) :=
  cumGo g.val projects (sortIsoDates g.keys) (fun _ => 0) []

/-- Inner loop of `applyCumulativeRate` (src/script.js lines 988-992): update
the running income and duration of each project and record the safe ratio of
the two running totals. -/
def rateInner (ik dk : PerProj) :
    List Str → PerProj → PerProj → PerProj → PerProj × PerProj × PerProj
  | [], rI, rD, rm => (rI, rD, rm)
  | p :: rest, rI, rD, rm =>
    rateInner ik dk rest (updAt rI p (rI p + ik p)) (updAt rD p (rD p + dk p))
      (updAt rm p (safeDiv (rI p + ik p) (rD p + dk p)))

/-- Key loop of `applyCumulativeRate` (src/script.js lines 977-996). -/
def rateGo (ival dval : Str → PerProj) (projects : List Str) :
    List Str → PerProj → PerProj → List (Str × PerProj) → List (Str × PerProj)
  | [], _, _, out => out
  | k :: ks, rI, rD, out =>
    rateGo ival dval projects ks
      (rateInner (ival k) (dval k) projects rI rD (fun _ => 0)).1
      (rateInner (ival k) (dval k) projects rI rD (fun _ => 0)).2.1
      (mapSet out k (rateInner (ival k) (dval k) projects rI rD (fun _ => 0)).2.2)

/-- Model of `applyCumulativeRate` (src/script.js lines 977-996): cumulative
ratio series recomputed from running sums, keyed by the sorted keys of the
income series. -/
def applyCumulativeRate (incomeGrouped durationGrouped : Grouped)
    (projects : List Str) : List (Str × PerProj) :=
  rateGo incomeGrouped.val durationGrouped.val projects
    (sortIsoDates incomeGrouped.keys) (fun _ => 0) (fun _ => 0) []

/-- Helper for `jsSetList`: de-duplicate keeping first occurrences, with the
already-seen keys as accumulator. -/
def jsSetGo (seen : List Str) : List Str → List Str
  | [] => []
  | k :: rest =>
    if k ∈ seen then jsSetGo seen rest
    else k :: jsSetGo (seen ++ [k]) rest

/-- Insertion-ordered de-duplication, modelling iteration over a JS `Set`
built from a list. -/
def jsSetList (l : List Str) : List Str :=
  jsSetGo [] l

/-- Model of the render-time instantaneous ratio series (src/script.js lines
1020-1031): over the union of the income and duration keys, each listed
project's ratio is the safe division of its income by its duration; other
keys and projects are absent from the `Map`s and read as 0. -/
def ratioGrouped (incomeGrouped durationGrouped : Grouped)
    (projects : List Str) : Grouped :=
  ⟨jsSetList (incomeGrouped.keys ++ durationGrouped.keys),
   fun k p =>
    if k ∈ jsSetList (incomeGrouped.keys ++ durationGrouped.keys) ∧ p ∈ projects
    then safeDiv (incomeGrouped.val k p) (durationGrouped.val k p) else 0⟩

/-- Chart control state (src/script.js lines 833-839). -/
structure CState where
  range : Str
  group : String
  cumulative : Bool
  customFrom : Str
  customTo : Str

/-- Model of `getMinMaxDates` (src/script.js lines 179-184): parse all dates,
sort ascending by timestamp, return the first and last. -/
def getMinMaxDates (dates : List Str) : Option OWDate × Option OWDate :=
  let parsed := isort (fun a b => decide (daysFromCivil a ≤ daysFromCivil b))
    (dates.filterMap toDateObj)
  (parsed.head?, parsed.getLast?)

/-- Model of `Number(state.range) || 14` (src/script.js line 927). -/
def rangeDays (r : Str) : ℚ :=
  match jsNumber (trim r) with
  | some q => if q = 0 then 14 else q
  | none => 14

/-- Model of `computeFilteredDates` (src/script.js lines 902-938).  `now`
stands for the host clock value `new Date()` used when no date parses; the
day-of-month arithmetic of `setDate` is modelled on whole days (the floor is
taken for a non-integral day count, which the UI never produces). -/
def computeFilteredDates (st : CState) (dates : List Str) (now : OWDate) :
    List Str :=
  if dates = [] then []
  else
    let anchor := (getMinMaxDates dates).2.getD now
    if st.range = "all".toList then dates
    else if st.range = "custom".toList then
      match toDateObj st.customFrom, toDateObj st.customTo with
      | some fromD, some toD =>
        dates.filter (fun d =>
          match toDateObj d with
          | none => false
          | some dt =>
            decide (min (tsOf fromD) (tsOf toD) ≤ tsOf dt ∧
              tsOf dt ≤ max (tsOf fromD) (tsOf toD)))
      | _, _ => dates
    else
      dates.filter (fun d =>
        match toDateObj d with
        | none => false
        | some dt =>
          decide ((daysFromCivil anchor - (Rat.floor (rangeDays st.range) - 1)) *
            86400000 ≤ tsOf dt))

/-- Claim C10: for every chart state (any range string, any custom bounds)
and every input date list, the range filter returns a sublist of its input:
it never reorders, duplicates, or introduces dates. -/
theorem C10_filter_sublist (st : CState) (dates : List Str) (now : OWDate) :
    (computeFilteredDates st dates now).Sublist dates := by
  simp only [computeFilteredDates]
  split_ifs with h0 h1 h2
  · exact List.nil_sublist dates
  · exact List.Sublist.refl dates
  · cases toDateObj st.customFrom <;> cases toDateObj st.customTo <;>
      first
        | exact List.Sublist.refl dates
        | exact List.filter_sublist dates
  · exact List.filter_sublist dates

theorem sum_map_add_single (l : List Str) (hnd : l.Nodup) (key : Str)
    (hmem : key ∈ l) (f : Str → ℚ) (c : ℚ) :
    (l.map (fun k => if k = key then f k + c else f k)).sum = (l.map f).sum + c := by
  induction l with
  | nil => simp at hmem
  | cons a l ih =>
    rcases List.nodup_cons.1 hnd with ⟨ha, hnd'⟩
    rcases List.mem_cons.1 hmem with hka | hkl
    · subst hka
      simp only [List.map_cons, List.sum_cons, if_true]
      rw [List.map_congr_left (fun k hk => by
        rw [if_neg]
        intro hkey
        exact ha (hkey ▸ hk))]
      ring
    · have hak : a ≠ key := fun h => ha (h ▸ hkl)
      simp only [List.map_cons, List.sum_cons, if_neg hak]
      rw [ih hnd' hkl]
      ring

theorem regroupGo_nodup (mode : String) (src : Str → Str → ℚ) :
    ∀ (fd : List Str) (acc : Grouped), acc.keys.Nodup →
    (regroupGo mode src fd acc).keys.Nodup
  | [], _, h => h
  | d :: rest, acc, h => by
    rw [regroupGo]
    cases toDateObj d with
    | none => exact regroupGo_nodup mode src rest acc h
    | some dt =>
      refine regroupGo_nodup mode src rest _ ?_
      by_cases hk : formatGroupKey dt mode ∈ acc.keys
      · simpa [hk] using h
      · simp only [hk, if_false]
        rw [List.nodup_append]
        exact ⟨h, List.nodup_singleton _, by simpa using hk⟩

theorem regroupGo_zero (mode : String) (src : Str → Str → ℚ) :
    ∀ (fd : List Str) (acc : Grouped),
    (∀ k q, k ∉ acc.keys → acc.val k q = 0) →
    ∀ k q, k ∉ (regroupGo mode src fd acc).keys →
    (regroupGo mode src fd acc).val k q = 0
  | [], _, h, k, q, hk => h k q hk
  | d :: rest, acc, h, k, q, hk => by
    cases hdd : toDateObj d with
    | none =>
      simp only [regroupGo, hdd] at hk ⊢
      exact regroupGo_zero mode src rest acc h k q hk
    | some dt =>
      simp only [regroupGo, hdd] at hk ⊢
      refine regroupGo_zero mode src rest _ ?_ k q hk
      intro k' q' hk'
      by_cases hmem : formatGroupKey dt mode ∈ acc.keys
      · simp only [hmem, if_true] at hk'
        have : k' ≠ formatGroupKey dt mode := fun h' => hk' (h' ▸ hmem)
        simp only [this, if_false]
        exact h k' q' hk'
      · simp only [hmem, if_false] at hk'
        rw [List.mem_append] at hk'
        push_neg at hk'
        have hne : k' ≠ formatGroupKey dt mode := by
          intro h'
          exact hk'.2 (by simp [h'])
        simp only [hne, if_false]
        exact h k' q' hk'.1

theorem regroupGo_sum (mode : String) (src : Str → Str → ℚ) (p : Str) :
    ∀ (fd : List Str) (keys : List Str) (val : Str → Str → ℚ), keys.Nodup →
    (∀ k q, k ∉ keys → val k q = 0) →
    ((regroupGo mode src fd ⟨keys, val⟩).keys.map
      (fun k => (regroupGo mode src fd ⟨keys, val⟩).val k p)).sum =
    (keys.map (fun k => val k p)).sum +
      ((fd.filter (fun d => (toDateObj d).isSome)).map (fun d => src d p)).sum := by
  intro fd
  induction fd with
  | nil =>
    intro keys val _ _
    simp [regroupGo]
  | cons d rest ih =>
    intro keys val hnd hzero
    cases hd : toDateObj d with
    | none =>
      simp only [regroupGo, hd]
      rw [List.filter_cons_of_neg (by simp [hd])]
      exact ih keys val hnd hzero
    | some dt =>
      simp only [regroupGo, hd]
      rw [List.filter_cons_of_pos (by simp [hd])]
      by_cases hmem : formatGroupKey dt mode ∈ keys
      · simp only [hmem, if_true]
        rw [ih keys (fun k q => if k = formatGroupKey dt mode
            then val k q + src d q else val k q) hnd (by
          intro k q hk
          have hne : k ≠ formatGroupKey dt mode := fun h' => hk (h' ▸ hmem)
          simp only [hne, if_false]
          exact hzero k q hk)]
        rw [sum_map_add_single keys hnd _ hmem (fun k => val k p) (src d p)]
        simp only [List.map_cons, List.sum_cons]
        ring
      · simp only [hmem, if_false]
        rw [ih (keys ++ [formatGroupKey dt mode])
          (fun k q => if k = formatGroupKey dt mode
            then val k q + src d q else val k q) (by
          rw [List.nodup_append]
          exact ⟨hnd, List.nodup_singleton _, by simpa using hmem⟩) (by
          intro k q hk
          rw [List.mem_append] at hk
          push_neg at hk
          have hne : k ≠ formatGroupKey dt mode := by
            intro h'
            exact hk.2 (by simp [h'])
          simp only [hne, if_false]
          exact hzero k q hk.1)]
        rw [List.map_append, List.sum_append]
        simp only [List.map_cons, List.map_nil, List.sum_cons, List.sum_nil,
          if_true]
        rw [hzero _ p hmem]
        rw [List.map_congr_left (fun k hk => by
          have hne : k ≠ formatGroupKey dt mode := by
            intro h'
            exact hmem (h' ▸ hk)
          rw [if_neg hne])]
        ring

/-- Claim C2 (amended): for every granularity and every raw per-date series,
regrouping preserves per-project totals over the entries whose date string
the date constructor can parse: for each project, the sum of its values over
all buckets of the regrouped series equals the sum of its values over the
parseable entries of the un-grouped raw-date series.  (Entries with
unparseable date strings are silently dropped by `regroup`.) -/
theorem C2_regroup_conservation (mode : String) (src : Str → Str → ℚ)
    (fd : List Str) (p : Str) :
    ((regroup mode src fd).keys.map (fun k => (regroup mode src fd).val k p)).sum =
      ((fd.filter (fun d => (toDateObj d).isSome)).map (fun d => src d p)).sum := by
  have h := regroupGo_sum mode src p fd [] (fun _ _ => 0) List.nodup_nil
    (fun _ _ _ => rfl)
  simpa [regroup] using h

theorem cumInner_spec (gk : PerProj) :
    ∀ (ps : List Str), ps.Nodup → ∀ (running cum : PerProj) (q : Str),
    ((cumInner gk ps running cum).1 q =
      if q ∈ ps then running q + gk q else running q) ∧
    ((cumInner gk ps running cum).2 q =
      if q ∈ ps then running q + gk q else cum q)
  | [], _, running, cum, q => by simp [cumInner]
  | p :: rest, hnd, running, cum, q => by
    rcases List.nodup_cons.1 hnd with ⟨hp, hnd'⟩
    rw [cumInner]
    have ih := cumInner_spec gk rest hnd'
      (updAt running p (running p + gk p)) (updAt cum p (running p + gk p)) q
    by_cases hq : q = p
    · subst hq
      have hqr : q ∉ rest := hp
      rw [ih.1, ih.2]
      simp [hqr, updAt]
    · rw [ih.1, ih.2]
      by_cases hqrest : q ∈ rest <;>
        simp [updAt, hq, hqrest, List.mem_cons]

/-- Entry list produced by the key loop of `applyCumulative` when started
from an empty out map (helper for the cumulative-sum proofs). -/
def cumListAux (gval : Str → PerProj) (projects : List Str) :
    List Str → PerProj → List (Str × PerProj)
  | [], _ => []
  | k :: ks, running =>
    (k, (cumInner (gval k) projects running (fun _ => 0)).2) ::
      cumListAux gval projects ks (cumInner (gval k) projects running (fun _ => 0)).1

theorem mapSet_append (out : List (Str × PerProj)) (k : Str) (v : PerProj)
    (h : ∀ e ∈ out, e.1 ≠ k) : mapSet out k v = out ++ [(k, v)] := by
  rw [mapSet, if_neg]
  rw [List.any_eq_true]
  push_neg
  intro e he
  simpa using h e he

theorem cumGo_eq_append (gval : Str → PerProj) (projects : List Str) :
    ∀ (ks : List Str) (running : PerProj) (out : List (Str × PerProj)),
    ks.Nodup → (∀ e ∈ out, e.1 ∉ ks) →
    cumGo gval projects ks running out =
      out ++ cumListAux gval projects ks running
  | [], _, out, _, _ => by simp [cumGo, cumListAux]
  | k :: ks, running, out, hnd, hdisj => by
    rcases List.nodup_cons.1 hnd with ⟨hk, hnd'⟩
    rw [cumGo, cumListAux]
    rw [mapSet_append out k _ (fun e he h' =>
      hdisj e he (h' ▸ List.mem_cons_self k ks))]
    rw [cumGo_eq_append gval projects ks _ _ hnd' (by
      intro e he
      rw [List.mem_append] at he
      rcases he with he | he
      · exact fun hin => hdisj e he (List.mem_cons_of_mem _ hin)
      · simp at he
        rw [he]
        exact hk)]
    simp

theorem cumListAux_length (gval : Str → PerProj) (projects : List Str) :
    ∀ (ks : List Str) (running : PerProj),
    (cumListAux gval projects ks running).length = ks.length
  | [], _ => rfl
  | k :: ks, running => by
    rw [cumListAux]
    simp [cumListAux_length gval projects ks]

theorem cumListAux_fst (gval : Str → PerProj) (projects : List Str) :
    ∀ (ks : List Str) (running : PerProj),
    (cumListAux gval projects ks running).map Prod.fst = ks
  | [], _ => rfl
  | k :: ks, running => by
    rw [cumListAux]
    simp [cumListAux_fst gval projects ks]

theorem cumListAux_getD (gval : Str → PerProj) (projects : List Str)
    (hp : projects.Nodup) (q : Str) (hq : q ∈ projects) :
    ∀ (ks : List Str) (running : PerProj) (i : Nat), i < ks.length →
    ((cumListAux gval projects ks running).getD i ([], fun _ => 0)).1 =
      ks.getD i [] ∧
    ((cumListAux gval projects ks running).getD i ([], fun _ => 0)).2 q =
      running q + ((ks.take (i + 1)).map (fun k => gval k q)).sum
  | [], _, i, hi => by simp at hi
  | k :: ks, running, 0, _ => by
    rw [cumListAux]
    have h := cumInner_spec (gval k) projects hp running (fun _ => 0) q
    simp only [List.getD_cons_zero, List.take_succ_cons, List.take_zero,
      List.map_cons, List.map_nil, List.sum_cons, List.sum_nil]
    exact ⟨by simp, by rw [h.2, if_pos hq]; ring⟩
  | k :: ks, running, i + 1, hi => by
    rw [cumListAux]
    have h := cumInner_spec (gval k) projects hp running (fun _ => 0) q
    have ih := cumListAux_getD gval projects hp q hq ks
      (cumInner (gval k) projects running (fun _ => 0)).1 i (by
        simp at hi
        omega)
    simp only [List.getD_cons_succ, List.take_succ_cons, List.map_cons,
      List.sum_cons]
    refine ⟨ih.1, ?_⟩
    rw [ih.2, h.1, if_pos hq]
    ring

/-- Claim C4: the cumulative transform keeps the sorted bucket keys (same
keys, ascending lexicographic order, a permutation of the grouped series'
keys), gives each listed project at bucket `i` the running sum of that
project's values at buckets up to and including `i`, and in particular the
last bucket holds the project's total over the whole grouped series. -/
theorem C4_cumulative (g : Grouped) (projects : List Str) (p : Str) (i : Nat)
    (hgk : g.keys.Nodup) (hp : projects.Nodup) (hpp : p ∈ projects)
    (hi : i < (sortIsoDates g.keys).length) :
    (applyCumulative g projects).map Prod.fst = sortIsoDates g.keys ∧
    (sortIsoDates g.keys).Pairwise (fun a b => strLeB a b = true) ∧
    (sortIsoDates g.keys).Perm g.keys ∧
    ((applyCumulative g projects).getD i ([], fun _ => 0)).1 =
      (sortIsoDates g.keys).getD i [] ∧
    ((applyCumulative g projects).getD i ([], fun _ => 0)).2 p =
      (((sortIsoDates g.keys).take (i + 1)).map (fun k => g.val k p)).sum ∧
    ((applyCumulative g projects).getD ((sortIsoDates g.keys).length - 1)
      ([], fun _ => 0)).2 p = (g.keys.map (fun k => g.val k p)).sum := by
  have hperm : (sortIsoDates g.keys).Perm g.keys := isort_perm _ _
  have hsnd : (sortIsoDates g.keys).Nodup := hperm.nodup_iff.2 hgk
  have happ : applyCumulative g projects =
      cumListAux g.val projects (sortIsoDates g.keys) (fun _ => 0) := by
    rw [applyCumulative, cumGo_eq_append g.val projects _ _ [] hsnd (by simp)]
    simp
  have hg := cumListAux_getD g.val projects hp p hpp (sortIsoDates g.keys)
    (fun _ => 0) i hi
  have hlast := cumListAux_getD g.val projects hp p hpp (sortIsoDates g.keys)
    (fun _ => 0) ((sortIsoDates g.keys).length - 1) (by omega)
  refine ⟨?_, ?_, hperm, ?_, ?_, ?_⟩
  · rw [happ, cumListAux_fst]
  · exact isort_sorted strLeB strLeB_total strLeB_trans g.keys
  · rw [happ]
    exact hg.1
  · rw [happ, hg.2]
    simp
  · rw [happ, hlast.2]
    rw [show (sortIsoDates g.keys).length - 1 + 1 = (sortIsoDates g.keys).length
      from by omega]
    rw [List.take_length]
    simpa using (hperm.map (fun k => g.val k p)).sum_eq

/-- Grouped series used by the cumulative witnesses: project `A` has value 2
on 2024-01-01 and value 3 on 2024-01-02, with the keys stored out of
order. -/
def cumExampleG : Grouped :=
  ⟨["2024-01-02".toList, "2024-01-01".toList],
   fun k p =>
    if k = "2024-01-01".toList ∧ p = "A".toList then 2
    else if k = "2024-01-02".toList ∧ p = "A".toList then 3 else 0⟩

/-- Claim C4 witness: on the two-bucket example the cumulative series is
keyed by the sorted keys and the second bucket carries the running total
5 = 2 + 3, the total over the whole series. -/
theorem C4_cumulative_witness :
    (applyCumulative cumExampleG ["A".toList]).map Prod.fst =
      sortIsoDates cumExampleG.keys ∧
    (sortIsoDates cumExampleG.keys).Pairwise (fun a b => strLeB a b = true) ∧
    (sortIsoDates cumExampleG.keys).Perm cumExampleG.keys ∧
    ((applyCumulative cumExampleG ["A".toList]).getD 1 ([], fun _ => 0)).1 =
      (sortIsoDates cumExampleG.keys).getD 1 [] ∧
    ((applyCumulative cumExampleG ["A".toList]).getD 1 ([], fun _ => 0)).2
      "A".toList =
      (((sortIsoDates cumExampleG.keys).take 2).map
        (fun k => cumExampleG.val k "A".toList)).sum ∧
    ((applyCumulative cumExampleG ["A".toList]).getD
        ((sortIsoDates cumExampleG.keys).length - 1) ([], fun _ => 0)).2
      "A".toList =
      (cumExampleG.keys.map (fun k => cumExampleG.val k "A".toList)).sum :=
  C4_cumulative cumExampleG ["A".toList] "A".toList 1 (by decide) (by decide)
    (by decide) (by decide)

theorem rateInner_spec (ik dk : PerProj) :
    ∀ (ps : List Str), ps.Nodup → ∀ (rI rD rm : PerProj) (q : Str),
    ((rateInner ik dk ps rI rD rm).1 q = if q ∈ ps then rI q + ik q else rI q) ∧
    ((rateInner ik dk ps rI rD rm).2.1 q =
      if q ∈ ps then rD q + dk q else rD q) ∧
    ((rateInner ik dk ps rI rD rm).2.2 q =
      if q ∈ ps then safeDiv (rI q + ik q) (rD q + dk q) else rm q)
  | [], _, rI, rD, rm, q => by simp [rateInner]
  | p :: rest, hnd, rI, rD, rm, q => by
    rcases List.nodup_cons.1 hnd with ⟨hp, hnd'⟩
    rw [rateInner]
    have ih := rateInner_spec ik dk rest hnd'
      (updAt rI p (rI p + ik p)) (updAt rD p (rD p + dk p))
      (updAt rm p (safeDiv (rI p + ik p) (rD p + dk p))) q
    by_cases hq : q = p
    · subst hq
      have hqr : q ∉ rest := hp
      rw [ih.1, ih.2.1, ih.2.2]
      simp [hqr, updAt]
    · rw [ih.1, ih.2.1, ih.2.2]
      by_cases hqrest : q ∈ rest <;>
        simp [updAt, hq, hqrest, List.mem_cons]

/-- Entry list produced by the key loop of `applyCumulativeRate` when started
from an empty out map (helper for the cumulative-rate proofs). -/
def rateListAux (ival dval : Str → PerProj) (projects : List Str) :
    List Str → PerProj → PerProj → List (Str × PerProj)
  | [], _, _ => []
  | k :: ks, rI, rD =>
    (k, (rateInner (ival k) (dval k) projects rI rD (fun _ => 0)).2.2) ::
      rateListAux ival dval projects ks
        (rateInner (ival k) (dval k) projects rI rD (fun _ => 0)).1
        (rateInner (ival k) (dval k) projects rI rD (fun _ => 0)).2.1

theorem rateGo_eq_append (ival dval : Str → PerProj) (projects : List Str) :
    ∀ (ks : List Str) (rI rD : PerProj) (out : List (Str × PerProj)),
    ks.Nodup → (∀ e ∈ out, e.1 ∉ ks) →
    rateGo ival dval projects ks rI rD out =
      out ++ rateListAux ival dval projects ks rI rD
  | [], _, _, out, _, _ => by simp [rateGo, rateListAux]
  | k :: ks, rI, rD, out, hnd, hdisj => by
    rcases List.nodup_cons.1 hnd with ⟨hk, hnd'⟩
    rw [rateGo, rateListAux]
    rw [mapSet_append out k _ (fun e he h' =>
      hdisj e he (h' ▸ List.mem_cons_self k ks))]
    rw [rateGo_eq_append ival dval projects ks _ _ _ hnd' (by
      intro e he
      rw [List.mem_append] at he
      rcases he with he | he
      · exact fun hin => hdisj e he (List.mem_cons_of_mem _ hin)
      · simp at he
        rw [he]
        exact hk)]
    simp

theorem rateListAux_getD (ival dval : Str → PerProj) (projects : List Str)
    (hp : projects.Nodup) (q : Str) (hq : q ∈ projects) :
    ∀ (ks : List Str) (rI rD : PerProj) (i : Nat), i < ks.length →
    ((rateListAux ival dval projects ks rI rD).getD i ([], fun _ => 0)).1 =
      ks.getD i [] ∧
    ((rateListAux ival dval projects ks rI rD).getD i ([], fun _ => 0)).2 q =
      safeDiv (rI q + ((ks.take (i + 1)).map (fun k => ival k q)).sum)
        (rD q + ((ks.take (i + 1)).map (fun k => dval k q)).sum)
  | [], _, _, i, hi => by simp at hi
  | k :: ks, rI, rD, 0, _ => by
    rw [rateListAux]
    have h := rateInner_spec (ival k) (dval k) projects hp rI rD (fun _ => 0) q
    simp only [List.getD_cons_zero, List.take_succ_cons, List.take_zero,
      List.map_cons, List.map_nil, List.sum_cons, List.sum_nil]
    refine ⟨by simp, ?_⟩
    rw [h.2.2, if_pos hq]
    ring_nf
  | k :: ks, rI, rD, i + 1, hi => by
    rw [rateListAux]
    have h := rateInner_spec (ival k) (dval k) projects hp rI rD (fun _ => 0) q
    have ih := rateListAux_getD ival dval projects hp q hq ks
      (rateInner (ival k) (dval k) projects rI rD (fun _ => 0)).1
      (rateInner (ival k) (dval k) projects rI rD (fun _ => 0)).2.1 i (by
        simp at hi
        omega)
    simp only [List.getD_cons_succ, List.take_succ_cons, List.map_cons,
      List.sum_cons]
    refine ⟨ih.1, ?_⟩
    rw [ih.2, h.1, h.2.1, if_pos hq, if_pos hq]
    ring_nf

/-- Project name of a row (src/script.js line 1704):
`(r.project_name || "(unknown)").trim() || "(unknown)"`. -/
def projOf (r : Row) : Str :=
  if trim (if r.project_name = [] then "(unknown)".toList else r.project_name) = []
  then "(unknown)".toList
  else trim (if r.project_name = [] then "(unknown)".toList else r.project_name)

/-- Trimmed date of a row (src/script.js line 1705). -/
def dateOf (r : Row) : Str :=
  trim r.date

/-- Duration of a row (src/script.js line 1706). -/
def rowDuration (r : Row) : ℚ :=
  toNumber r.duration_hours

/-- Accumulator of the statistics/chart-data loop
(src/script.js lines 1693-1724). -/
structure Stats where
  totalIncome : ℚ
  totalDuration : ℚ
  projKeys : List Str
  projIncome : Str → ℚ
  projDuration : Str → ℚ
  dateSet : List Str
  incomeByDateProject : Str → Str → ℚ
  durationByDateProject : Str → Str → ℚ

/-- Empty accumulator. -/
def statsInit : Stats :=
  ⟨0, 0, [], fun _ => 0, fun _ => 0, [], fun _ _ => 0, fun _ _ => 0⟩

/-- The row loop of `buildStatsAndChartsFromCsv` (src/script.js lines
1703-1724): accumulate totals, per-project totals, the date set (only
non-empty trimmed dates enter the set) and the per-date per-project income
and duration maps (keyed by the trimmed date, including the empty one). -/
def buildStatsGo (all : List Row) : List Row → Stats → Stats
  | [], acc => acc
  | r :: rest, acc =>
    buildStatsGo all rest
      { totalIncome := acc.totalIncome + incomeGet all r
        totalDuration := acc.totalDuration + rowDuration r
        projKeys := if projOf r ∈ acc.projKeys then acc.projKeys
          else acc.projKeys ++ [projOf r]
        projIncome := fun q => if q = projOf r
          then acc.projIncome q + incomeGet all r else acc.projIncome q
        projDuration := fun q => if q = projOf r
          then acc.projDuration q + rowDuration r else acc.projDuration q
        dateSet := if dateOf r = [] then acc.dateSet
          else if dateOf r ∈ acc.dateSet then acc.dateSet
          else acc.dateSet ++ [dateOf r]
        incomeByDateProject := fun dq pq => if dq = dateOf r ∧ pq = projOf r
          then acc.incomeByDateProject dq pq + incomeGet all r
          else acc.incomeByDateProject dq pq
        durationByDateProject := fun dq pq => if dq = dateOf r ∧ pq = projOf r
          then acc.durationByDateProject dq pq + rowDuration r
          else acc.durationByDateProject dq pq }

/-- Model of the statistics/chart-data computation of
`buildStatsAndChartsFromCsv` for a parsed row list. -/
def buildStats (rows : List Row) : Stats :=
  buildStatsGo rows rows statsInit

/-- Rows used by the claim C2 counterexample: a single ingested row whose
date cell holds the unparseable string `xyz`, earning 5 for project `A`. -/
def c2rows : List Row :=
  [{ amount := "5".toList, date := "xyz".toList,
     project_name := "A".toList, duration_hours := "2".toList }]

/-- The filtered date list the render path hands to `regroup` for `c2rows`
(src/script.js lines 902-909, 1017): the sorted date set under range `all`. -/
def c2fd : List Str :=
  computeFilteredDates ⟨"all".toList, "day", false, [], []⟩
    (sortIsoDates (buildStats c2rows).dateSet) ⟨2026, 1, 1⟩

/-- Claim C2 counterexample, reached through the program pipeline itself: the
ingestion loop keeps every non-empty trimmed date string in the date set, so
the row dated `xyz` puts `xyz` into the raw-date series, and range `all`
passes it on to `regroup` unchanged.  Project `A`'s income sums to 5 over
the entries of that un-grouped raw-date series, but `regroup` drops the
entry because the date constructor cannot parse `xyz`, so the regrouped
series has no buckets and its total is 0, not 5. -/
theorem C2_regroup_counterexample :
    c2fd = ["xyz".toList] ∧
    (c2fd.map
      (fun d => (buildStats c2rows).incomeByDateProject d "A".toList)).sum = 5 ∧
    ((regroup "day" (buildStats c2rows).incomeByDateProject c2fd).keys.map
      (fun k => (regroup "day" (buildStats c2rows).incomeByDateProject
        c2fd).val k "A".toList)).sum = 0 ∧
    ((regroup "day" (buildStats c2rows).incomeByDateProject c2fd).keys.map
      (fun k => (regroup "day" (buildStats c2rows).incomeByDateProject
        c2fd).val k "A".toList)).sum ≠
      (c2fd.map
        (fun d => (buildStats c2rows).incomeByDateProject d "A".toList)).sum := by
  refine ⟨by with_unfolding_all decide, by with_unfolding_all decide,
    by with_unfolding_all decide, by with_unfolding_all decide⟩

/-- Model of the overall ratio (src/script.js line 1726). -/
def overallRatio (rows : List Row) : ℚ :=
  safeDiv (buildStats rows).totalIncome (buildStats rows).totalDuration

/-- Model of the per-project ratio of `projArr`
(src/script.js lines 1728-1733). -/
def projRatio (rows : List Row) (p : Str) : ℚ :=
  safeDiv ((buildStats rows).projIncome p) ((buildStats rows).projDuration p)

theorem buildStatsGo_totalIncome (all : List Row) :
    ∀ (rs : List Row) (acc : Stats),
    (buildStatsGo all rs acc).totalIncome =
      acc.totalIncome + (rs.map (incomeGet all)).sum
  | [], acc => by simp [buildStatsGo]
  | r :: rest, acc => by
    rw [buildStatsGo, buildStatsGo_totalIncome all rest]
    simp only [List.map_cons, List.sum_cons]
    ring

theorem buildStatsGo_totalDuration (all : List Row) :
    ∀ (rs : List Row) (acc : Stats),
    (buildStatsGo all rs acc).totalDuration =
      acc.totalDuration + (rs.map rowDuration).sum
  | [], acc => by simp [buildStatsGo]
  | r :: rest, acc => by
    rw [buildStatsGo, buildStatsGo_totalDuration all rest]
    simp only [List.map_cons, List.sum_cons]
    ring

theorem buildStatsGo_projIncome (all : List Row) (p : Str) :
    ∀ (rs : List Row) (acc : Stats),
    (buildStatsGo all rs acc).projIncome p =
      acc.projIncome p +
        ((rs.filter (fun r => projOf r = p)).map (incomeGet all)).sum
  | [], acc => by simp [buildStatsGo]
  | r :: rest, acc => by
    rw [buildStatsGo, buildStatsGo_projIncome all p rest]
    dsimp only
    by_cases hpr : projOf r = p
    · rw [List.filter_cons_of_pos (by simp [hpr]), if_pos hpr.symm]
      simp only [List.map_cons, List.sum_cons]
      ring
    · rw [List.filter_cons_of_neg (by simp [hpr]), if_neg (fun h => hpr h.symm)]

theorem buildStatsGo_projDuration (all : List Row) (p : Str) :
    ∀ (rs : List Row) (acc : Stats),
    (buildStatsGo all rs acc).projDuration p =
      acc.projDuration p +
        ((rs.filter (fun r => projOf r = p)).map rowDuration).sum
  | [], acc => by simp [buildStatsGo]
  | r :: rest, acc => by
    rw [buildStatsGo, buildStatsGo_projDuration all p rest]
    dsimp only
    by_cases hpr : projOf r = p
    · rw [List.filter_cons_of_pos (by simp [hpr]), if_pos hpr.symm]
      simp only [List.map_cons, List.sum_cons]
      ring
    · rw [List.filter_cons_of_neg (by simp [hpr]), if_neg (fun h => hpr h.symm)]

theorem buildStatsGo_dateSet_ne (all : List Row) :
    ∀ (rs : List Row) (acc : Stats),
    (∀ d ∈ acc.dateSet, d ≠ ([] : Str)) →
    ∀ d ∈ (buildStatsGo all rs acc).dateSet, d ≠ ([] : Str)
  | [], _, h => h
  | r :: rest, acc, h => by
    rw [buildStatsGo]
    refine buildStatsGo_dateSet_ne all rest _ ?_
    intro d hd
    simp only at hd
    by_cases h0 : dateOf r = []
    · rw [if_pos h0] at hd
      exact h d hd
    · rw [if_neg h0] at hd
      by_cases hmem : dateOf r ∈ acc.dateSet
      · rw [if_pos hmem] at hd
        exact h d hd
      · rw [if_neg hmem] at hd
        rw [List.mem_append] at hd
        rcases hd with hd | hd
        · exact h d hd
        · simp at hd
          rw [hd]
          exact h0

/-- The per-date map with the empty-date accumulations hidden: what any
bucketed series can observe of `incomeByDateProject`, since the empty date
never enters the chart date domain and never parses. -/
def maskEmpty (m : Str → Str → ℚ) : Str → Str → ℚ :=
  fun dq => if dq = [] then (fun _ => 0) else m dq

theorem regroupGo_congr (mode : String) (src src2 : Str → Str → ℚ)
    (hsrc : ∀ d, (toDateObj d).isSome → src d = src2 d) :
    ∀ (fd : List Str) (acc : Grouped),
    regroupGo mode src fd acc = regroupGo mode src2 fd acc
  | [], acc => rfl
  | d :: rest, acc => by
    cases hd : toDateObj d with
    | none => simp only [regroupGo, hd, regroupGo_congr mode src src2 hsrc rest]
    | some dt =>
      simp only [regroupGo, hd]
      rw [hsrc d (by simp [hd])]
      rw [regroupGo_congr mode src src2 hsrc rest]

theorem toDateObj_nil : toDateObj ([] : Str) = none := by decide

theorem regroup_maskEmpty (mode : String) (m : Str → Str → ℚ)
    (fd : List Str) :
    regroup mode m fd = regroup mode (maskEmpty m) fd := by
  rw [regroup, regroup]
  refine regroupGo_congr mode m (maskEmpty m) ?_ fd _
  intro d hd
  rw [maskEmpty]
  have hne : d ≠ [] := by
    intro h0
    rw [h0, toDateObj_nil] at hd
    simp at hd
  rw [if_neg hne]

/-- Claim C9: a row whose date is empty (or whitespace-only) still
contributes its income and duration to the overall totals and to the
per-project totals used for the quick statistics and the top-N ranking
(the totals are plain sums over all rows, with no date guard), but the
empty date never enters the chart date set (every stored date is
non-empty, also after sorting into the chart domain), and the per-date
maps behave for every regrouping exactly as if the empty-date entry were
absent, so the row's values appear in no bucket of any rendered or
filtered series. -/
theorem C9_empty_dates (rows : List Row) (mode : String) (fd : List Str)
    (p dd : Str) (hdd : dd ∈ (buildStats rows).dateSet) :
    (buildStats rows).totalIncome = (rows.map (incomeGet rows)).sum ∧
    (buildStats rows).totalDuration = (rows.map rowDuration).sum ∧
    (buildStats rows).projIncome p =
      ((rows.filter (fun r => projOf r = p)).map (incomeGet rows)).sum ∧
    (buildStats rows).projDuration p =
      ((rows.filter (fun r => projOf r = p)).map rowDuration).sum ∧
    dd ≠ ([] : Str) ∧
    ([] : Str) ∉ (buildStats rows).dateSet ∧
    ([] : Str) ∉ sortIsoDates (buildStats rows).dateSet ∧
    regroup mode (buildStats rows).incomeByDateProject fd =
      regroup mode (maskEmpty (buildStats rows).incomeByDateProject) fd ∧
    regroup mode (buildStats rows).durationByDateProject fd =
      regroup mode (maskEmpty (buildStats rows).durationByDateProject) fd := by
  have hne : ∀ d ∈ (buildStats rows).dateSet, d ≠ ([] : Str) :=
    buildStatsGo_dateSet_ne rows rows statsInit (by intro d hd; simp [statsInit] at hd)
  refine ⟨?_, ?_, ?_, ?_, hne dd hdd, ?_, ?_, regroup_maskEmpty _ _ _,
    regroup_maskEmpty _ _ _⟩
  · rw [buildStats, buildStatsGo_totalIncome]
    simp [statsInit]
  · rw [buildStats, buildStatsGo_totalDuration]
    simp [statsInit]
  · rw [buildStats, buildStatsGo_projIncome]
    simp [statsInit]
  · rw [buildStats, buildStatsGo_projDuration]
    simp [statsInit]
  · intro hmem
    exact hne [] hmem rfl
  · intro hmem
    have := (isort_perm strLeB (buildStats rows).dateSet).mem_iff.1 hmem
    exact hne [] this rfl

/-- Rows used by the claim C9 witness: one dated row and one row whose date
is blank but which still carries income 10 and duration 1. -/
def c9rows : List Row :=
  [{ amount := "100".toList, date := "2024-01-01".toList,
     project_name := "A".toList, duration_hours := "2".toList },
   { amount := "10".toList, date := " ".toList,
     project_name := "A".toList, duration_hours := "1".toList }]

/-- Claim C9 witness: the theorem instantiated on `c9rows` with project `A`,
the day granularity and the one-date filtered list. -/
theorem C9_empty_dates_witness :
    (buildStats c9rows).totalIncome = (c9rows.map (incomeGet c9rows)).sum ∧
    (buildStats c9rows).totalDuration = (c9rows.map rowDuration).sum ∧
    (buildStats c9rows).projIncome "A".toList =
      ((c9rows.filter (fun r => projOf r = "A".toList)).map
        (incomeGet c9rows)).sum ∧
    (buildStats c9rows).projDuration "A".toList =
      ((c9rows.filter (fun r => projOf r = "A".toList)).map rowDuration).sum ∧
    "2024-01-01".toList ≠ ([] : Str) ∧
    ([] : Str) ∉ (buildStats c9rows).dateSet ∧
    ([] : Str) ∉ sortIsoDates (buildStats c9rows).dateSet ∧
    regroup "day" (buildStats c9rows).incomeByDateProject
        ["2024-01-01".toList] =
      regroup "day" (maskEmpty (buildStats c9rows).incomeByDateProject)
        ["2024-01-01".toList] ∧
    regroup "day" (buildStats c9rows).durationByDateProject
        ["2024-01-01".toList] =
      regroup "day" (maskEmpty (buildStats c9rows).durationByDateProject)
        ["2024-01-01".toList] :=
  C9_empty_dates c9rows "day" ["2024-01-01".toList] "A".toList
    "2024-01-01".toList (by decide)

/-- Claim C1: ratios are always safe divisions of income by duration, never
NaN or Infinity — `safeDiv` yields the exact quotient for a non-zero
denominator and 0 for a zero denominator; the instantaneous per-bucket ratio
is the safe division of the per-bucket per-project sums; the cumulative
ratio at bucket `i` is the safe division of the running income sum by the
running duration sum (not a sum of ratios); and the dataset-level overall
and per-project ratios are safe divisions of the corresponding totals. -/
theorem C1_ratio (incG durG : Grouped) (projects : List Str) (rows : List Row)
    (k p : Str) (i : Nat) (a b : ℚ)
    (hb : b ≠ 0)
    (hk : k ∈ jsSetList (incG.keys ++ durG.keys))
    (hp : p ∈ projects)
    (hnd : projects.Nodup)
    (hkn : incG.keys.Nodup)
    (hi : i < (sortIsoDates incG.keys).length) :
    safeDiv a 0 = 0 ∧
    safeDiv a b = a / b ∧
    (ratioGrouped incG durG projects).val k p =
      safeDiv (incG.val k p) (durG.val k p) ∧
    ((applyCumulativeRate incG durG projects).getD i ([], fun _ => 0)).2 p =
      safeDiv ((((sortIsoDates incG.keys).take (i + 1)).map
          (fun x => incG.val x p)).sum)
        ((((sortIsoDates incG.keys).take (i + 1)).map
          (fun x => durG.val x p)).sum) ∧
    overallRatio rows =
      safeDiv ((rows.map (incomeGet rows)).sum) ((rows.map rowDuration).sum) ∧
    projRatio rows p =
      safeDiv (((rows.filter (fun r => projOf r = p)).map (incomeGet rows)).sum)
        (((rows.filter (fun r => projOf r = p)).map rowDuration).sum) := by
  have hsorted : (sortIsoDates incG.keys).Nodup :=
    (isort_perm strLeB incG.keys).nodup_iff.2 hkn
  refine ⟨by rw [safeDiv, if_pos rfl], by rw [safeDiv, if_neg hb], ?_, ?_, ?_, ?_⟩
  · rw [ratioGrouped]
    exact if_pos ⟨hk, hp⟩
  · rw [applyCumulativeRate,
      rateGo_eq_append incG.val durG.val projects _ _ _ [] hsorted (by simp)]
    rw [List.nil_append]
    have h := rateListAux_getD incG.val durG.val projects hnd p hp
      (sortIsoDates incG.keys) (fun _ => 0) (fun _ => 0) i hi
    rw [h.2]
    norm_num
  · rw [overallRatio, buildStats, buildStatsGo_totalIncome,
      buildStatsGo_totalDuration]
    simp [statsInit]
  · rw [projRatio, buildStats, buildStatsGo_projIncome, buildStatsGo_projDuration]
    simp [statsInit]

/-- Income series of the claim C1 witness. -/
def c1inc : Grouped :=
  ⟨["2024-01-01".toList, "2024-01-02".toList],
   fun k p =>
    if p = "A".toList ∧ k = "2024-01-01".toList then 100
    else if p = "A".toList ∧ k = "2024-01-02".toList then 10 else 0⟩

/-- Duration series of the claim C1 witness: project `A` has 2 hours on the
first day and no duration on the second. -/
def c1dur : Grouped :=
  ⟨["2024-01-01".toList, "2024-01-02".toList],
   fun k p => if p = "A".toList ∧ k = "2024-01-01".toList then 2 else 0⟩

/-- Rows of the claim C1 witness dataset. -/
def c1rows : List Row :=
  [{ amount := "50".toList, date := "2024-01-01".toList,
     project_name := "B".toList, duration_hours := "2".toList }]

/-- Claim C1 witness: the ratio facts at the concrete two-bucket series and
the one-row dataset. -/
theorem C1_ratio_witness :
    safeDiv (7 : ℚ) 0 = 0 ∧
    safeDiv (7 : ℚ) 2 = 7 / 2 ∧
    (ratioGrouped c1inc c1dur ["A".toList]).val "2024-01-01".toList "A".toList =
      safeDiv (c1inc.val "2024-01-01".toList "A".toList)
        (c1dur.val "2024-01-01".toList "A".toList) ∧
    ((applyCumulativeRate c1inc c1dur ["A".toList]).getD 1
        ([], fun _ => 0)).2 "A".toList =
      safeDiv ((((sortIsoDates c1inc.keys).take 2).map
          (fun x => c1inc.val x "A".toList)).sum)
        ((((sortIsoDates c1inc.keys).take 2).map
          (fun x => c1dur.val x "A".toList)).sum) ∧
    overallRatio c1rows =
      safeDiv ((c1rows.map (incomeGet c1rows)).sum)
        ((c1rows.map rowDuration).sum) ∧
    projRatio c1rows "A".toList =
      safeDiv (((c1rows.filter (fun r => projOf r = "A".toList)).map
          (incomeGet c1rows)).sum)
        (((c1rows.filter (fun r => projOf r = "A".toList)).map
          rowDuration).sum) :=
  C1_ratio c1inc c1dur ["A".toList] c1rows "2024-01-01".toList "A".toList 1 7 2
    (by with_unfolding_all decide) (by decide) (by decide) (by decide)
    (by decide) (by decide)

/-- Output geometry of the PNG export: canvas size and, for each chart, the
rectangle `(x, y, w, h)` the chart surface is drawn into. -/
structure ExportLayout where
  outW : Nat
  outH : Nat
  images : List (Nat × Nat × Nat × Nat)

/-- Placement loop of `exportPng` (src/script.js lines 1121-1133): for each
block advance past the title band, draw the surface centred horizontally at
its native size, advance past it, and insert an 18px gap between consecutive
blocks. -/
def exportImagesGo (outW : Nat) : Nat → List (Nat × Nat) → List (Nat × Nat × Nat × Nat)
  | _, [] => []
  | y, (w, h) :: rest =>
    ((outW - w) / 2, y + 34, w, h) ::
      exportImagesGo outW (y + 34 + h + (if rest = [] then 0 else 18)) rest

/-- Model of `exportPng` (src/script.js lines 1077-1139) restricted to its
output geometry: the surfaces are the `(width, height)` pairs of the chart
canvases; `pad = 28`, `titleH = 34`, the header and metadata lines occupy
22px each starting at `pad`. -/
def exportPng (blocks : List (Nat × Nat)) : ExportLayout :=
  ⟨(blocks.map Prod.fst).foldl max 0,
   28 + blocks.length * 34 + (blocks.map Prod.snd).sum + 28 +
     (blocks.length - 1) * 18,
   exportImagesGo ((blocks.map Prod.fst).foldl max 0) (28 + 22 + 22) blocks⟩

theorem exportImagesGo_length (outW : Nat) :
    ∀ (blocks : List (Nat × Nat)) (y : Nat),
    (exportImagesGo outW y blocks).length = blocks.length
  | [], _ => rfl
  | (w, h) :: rest, y => by
    rw [exportImagesGo]
    simp [exportImagesGo_length outW rest]

theorem exportImagesGo_head_y (outW : Nat) (blocks : List (Nat × Nat))
    (y : Nat) (hne : blocks ≠ []) :
    ((exportImagesGo outW y blocks).getD 0 (0, 0, 0, 0)).2.1 = y + 34 := by
  cases blocks with
  | nil => exact absurd rfl hne
  | cons b rest =>
    rcases b with ⟨w, h⟩
    rw [exportImagesGo]
    rfl

theorem exportImagesGo_getD_wh (outW : Nat) :
    ∀ (blocks : List (Nat × Nat)) (y : Nat) (i : Nat), i < blocks.length →
    ((exportImagesGo outW y blocks).getD i (0, 0, 0, 0)).2.2 =
      blocks.getD i (0, 0)
  | [], _, i, hi => by simp at hi
  | (w, h) :: rest, y, 0, _ => by
    rw [exportImagesGo]
    rfl
  | (w, h) :: rest, y, i + 1, hi => by
    rw [exportImagesGo]
    simp only [List.getD_cons_succ]
    exact exportImagesGo_getD_wh outW rest _ i (by simp at hi; omega)

theorem exportImagesGo_getD_y (outW : Nat) :
    ∀ (blocks : List (Nat × Nat)) (y : Nat) (j : Nat), j + 1 < blocks.length →
    ((exportImagesGo outW y blocks).getD (j + 1) (0, 0, 0, 0)).2.1 =
      ((exportImagesGo outW y blocks).getD j (0, 0, 0, 0)).2.1 +
        (blocks.getD j (0, 0)).2 + 18 + 34
  | [], _, j, hj => by simp at hj
  | (w, h) :: rest, y, 0, hj => by
    have hne : rest ≠ [] := by
      simp at hj
      intro h0
      rw [h0] at hj
      simp at hj
    rw [exportImagesGo]
    simp only [List.getD_cons_succ, List.getD_cons_zero, if_neg hne]
    rw [exportImagesGo_head_y outW rest _ hne]
  | (w, h) :: rest, y, j + 1, hj => by
    rw [exportImagesGo]
    simp only [List.getD_cons_succ]
    exact exportImagesGo_getD_y outW rest _ j (by simp at hj; omega)

/-- Claim C7: the export composes the chart surfaces vertically at their
native pixel resolution — the `i`-th drawn rectangle has exactly the `i`-th
input surface's width and height, and consecutive surfaces are stacked with
the fixed title band (34px) and inter-chart margin (18px) between them — and
the total output height equals the margins (top and bottom padding of 28px
each plus the 18px margins between consecutive charts) plus the per-chart
title heights (34px each) plus the sum of the input surface heights. -/
theorem C7_export_layout (blocks : List (Nat × Nat)) (i j : Nat)
    (_hne : blocks ≠ []) (hi : i < blocks.length) (hj : j + 1 < blocks.length) :
    (exportPng blocks).outH =
      (28 + 28 + (blocks.length - 1) * 18) + blocks.length * 34 +
        (blocks.map Prod.snd).sum ∧
    (exportPng blocks).images.length = blocks.length ∧
    ((exportPng blocks).images.getD i (0, 0, 0, 0)).2.2 = blocks.getD i (0, 0) ∧
    ((exportPng blocks).images.getD (j + 1) (0, 0, 0, 0)).2.1 =
      ((exportPng blocks).images.getD j (0, 0, 0, 0)).2.1 +
        (blocks.getD j (0, 0)).2 + 18 + 34 := by
  refine ⟨?_, ?_, ?_, ?_⟩
  · rw [exportPng]
    dsimp only
    omega
  · rw [exportPng]
    exact exportImagesGo_length _ blocks _
  · rw [exportPng]
    exact exportImagesGo_getD_wh _ blocks _ i hi
  · rw [exportPng]
    exact exportImagesGo_getD_y _ blocks _ j hj

/-- Claim C7 witness: two 800x220 chart surfaces: output height
28 + 2*34 + 440 + 28 + 18 = 582, both surfaces drawn at native size, the
second 220 + 18 + 34 pixels below the first. -/
theorem C7_export_layout_witness :
    (exportPng [(800, 220), (800, 220)]).outH =
      (28 + 28 + (2 - 1) * 18) + 2 * 34 +
        ([(800, 220), (800, 220)].map Prod.snd).sum ∧
    (exportPng [(800, 220), (800, 220)]).images.length = 2 ∧
    ((exportPng [(800, 220), (800, 220)]).images.getD 0 (0, 0, 0, 0)).2.2 =
      [(800, 220), (800, 220)].getD 0 (0, 0) ∧
    ((exportPng [(800, 220), (800, 220)]).images.getD 1 (0, 0, 0, 0)).2.1 =
      ((exportPng [(800, 220), (800, 220)]).images.getD 0 (0, 0, 0, 0)).2.1 +
        ([(800, 220), (800, 220)].getD 0 (0, 0)).2 + 18 + 34 := by
  have h := C7_export_layout [(800, 220), (800, 220)] 0 0 (by decide)
    (by decide) (by decide)
  exact ⟨h.1, h.2.1, h.2.2.1, h.2.2.2⟩
